import Mathlib

/-!
Verification of the gelbooru-scraper fetch-and-download pipeline
(src/main.rs) against its natural-language specification.

The embedding below translates the data model and the operations of
`_main`, `GelbooruClient` and `JsonPrinter` into Lean definitions:

* network responses are an oracle `Nat → Except String GelbooruData`
  (one response per requested page offset, errors as `Except.error`);
* per-item download results (`download_image`, fetch plus filesystem
  write) are an oracle list `List (Except String Unit)`, one entry per
  launched task;
* the filesystem is a list of paths (`path.exists()` is membership);
* the pagination loop (lines 163-205) is a fuel-indexed recursion
  producing the externally visible effects, the created tasks and the
  metadata store;
* the spawned download tasks (lines 184-213) are given both as a
  deterministic sequential execution (`execSeq`) and as a small-step
  interleaving system (`ExecStep`/`ExecSteps`) whose admission gate is
  the capacity-24 semaphore of `GelbooruClient::new` (line 259).
-/

/-- Result type of one fallible operation (`anyhow::Result<()>` in the
source): `download_image`, or the body of one spawned task. -/
abbrev FetchResult := Except String Unit

instance : DecidableEq (Except String Unit) := fun a b =>
  match a, b with
  | .ok (), .ok () => isTrue rfl
  | .error x, .error y =>
    if h : x = y then isTrue (by rw [h]) else isFalse (by intro hc; cases hc; exact h rfl)
  | .ok _, .error _ => isFalse (fun h => Except.noConfusion h)
  | .error _, .ok _ => isFalse (fun h => Except.noConfusion h)

/-- Model of `GelbooruAttributes` (src/main.rs lines 313-318): only the
total result count is deserialized. -/
structure GelbooruAttributes where
  count : Nat
deriving DecidableEq

/-- Model of `GelbooruPost` (src/main.rs lines 320-351), all fields. -/
structure GelbooruPost where
  id : Int
  created_at : String
  score : Int
  width : Int
  height : Int
  md5 : String
  directory : String
  image : String
  rating : String
  source : String
  change : Int
  owner : String
  creator_id : Int
  parent_id : Int
  sample : Int
  preview_height : Int
  preview_width : Int
  tags : String
  title : String
  has_notes : String
  has_comments : String
  file_url : String
  preview_url : String
  sample_url : String
  sample_height : Int
  sample_width : Int
  status : String
  post_locked : Int
  has_children : String
deriving DecidableEq

/-- Model of `GelbooruData` (src/main.rs lines 305-311): attributes plus
an optional list of posts; an absent `post` key deserializes to `none`. -/
structure GelbooruData where
  attributes : GelbooruAttributes
  posts : Option (List GelbooruPost)
deriving DecidableEq

/-- Characters of the final path segment of a URL: everything after the
last '/' (resetting an accumulator at every '/'). -/
def afterLastSlash (l : List Char) : List Char :=
  l.foldl (fun acc c => if c = '/' then [] else acc ++ [c]) []

/-- Destination filename of a post: the final path segment of its file
URL, i.e. `post.file_url.split('/').last().unwrap()` (line 169). -/
def actual_filename (url : String) : String :=
  String.mk (afterLastSlash url.toList)

/-- Destination path: `output_dir.join(&actual_filename)` (line 170). -/
def pathJoin (dir name : String) : String := dir ++ "/" ++ name

/-- One insertion of the `JsonPrinter` metadata map (the `BTreeMap`
`extend` of `insert_posts`, lines 372-379): the store is an association
list keyed by the post's `md5`; inserting an existing key replaces the
value in place, a new key is appended. -/
def insertPost (m : List (String × GelbooruPost)) (p : GelbooruPost) :
    List (String × GelbooruPost) :=
  if m.any (fun e => e.1 == p.md5) then
    m.map (fun e => if e.1 == p.md5 then (e.1, p) else e)
  else m ++ [(p.md5, p)]

/-- Model of `JsonPrinter::insert_posts` (lines 372-379): merge a page's
posts into the store, keyed by `md5`, in page order. -/
def insert_posts (m : List (String × GelbooruPost)) (posts : List GelbooruPost) :
    List (String × GelbooruPost) :=
  posts.foldl insertPost m

/-- Lookup in the metadata store by content hash. -/
def storeLookup (m : List (String × GelbooruPost)) (h : String) : Option GelbooruPost :=
  (m.find? (fun e => e.1 == h)).map (fun e => e.2)

/-- Number of entries of the metadata store carrying a given key. -/
def keyCount (m : List (String × GelbooruPost)) (h : String) : Nat :=
  m.countP (fun e => e.1 == h)

/-- Outcome tag of one console line: the three terminal outcomes printed
by `_main` (lines 171-178 and 190-198). -/
inductive LineTag where
  | alreadyExists
  | downloaded
  | failed (err : String)
deriving DecidableEq

/-- One console line of the progress reporter: destination filename,
outcome tag, the printed counter value, and the fixed total. -/
structure OutLine where
  name : String
  tag : LineTag
  shown : Nat
  total : Nat
deriving DecidableEq

/-- Externally visible actions of the pipeline, in program order. -/
inductive Effect where
  | search (limit pid : Nat)
  | fetch (url : String)
  | writeFile (path : String)
  | printLine (l : OutLine)
  | printSummary (wrote skipped : Nat)
  | emitJson (m : List (String × GelbooruPost))
deriving DecidableEq

/-- One discovered not-yet-dispatched work item: the post, its
destination filename and its destination path. -/
structure TaskSpec where
  post : GelbooruPost
  name : String
  path : String
deriving DecidableEq

/-- Accumulated state of the pagination loop (lines 159-205): effects so
far, the posts skipped because their destination path already existed,
the download tasks pushed into the `tasks` vector, the `JsonPrinter`
store, and the `processed` counter (only skips touch it while the loop
runs, since no pushed task has been spawned yet). -/
structure PagAcc where
  fx : List Effect
  skips : List TaskSpec
  tasks : List TaskSpec
  store : List (String × GelbooruPost)
  processed : Nat
deriving DecidableEq

/-- Outcome of the pagination loop: aborted by a failed `query_gelbooru`
(the `?` on line 164 propagates the error out of `_main`), or finished
at the first response whose `posts` field is `None`. -/
inductive PagResult where
  | aborted (fx : List Effect) (err : String)
  | finished (acc : PagAcc)
deriving DecidableEq

/-- Initial pagination state (lines 159-162). -/
def initPagAcc : PagAcc := ⟨[], [], [], [], 0⟩

/-- Work item of one post relative to an output directory: filename and
path derived as on lines 169-170. -/
def specOf (dir : String) (post : GelbooruPost) : TaskSpec :=
  ⟨post, actual_filename post.file_url,
    pathJoin dir (actual_filename post.file_url)⟩

/-- Body of the per-post loop (lines 168-203): compute the destination
filename and path; if the path exists, print the `already exists` line
with the pre-increment `processed` value (`fetch_add` returns the old
value, line 175) and bump `processed`; otherwise push a download task.
`total` is `attributes.count` from the probe call. -/
def processPost (dir : String) (fs : List String) (total : Nat)
    (acc : PagAcc) (post : GelbooruPost) : PagAcc :=
  let name := actual_filename post.file_url
  let path := pathJoin dir name
  if path ∈ fs then
    { acc with
      fx := acc.fx ++ [.printLine ⟨name, .alreadyExists, acc.processed, total⟩],
      skips := acc.skips ++ [⟨post, name, path⟩],
      processed := acc.processed + 1 }
  else
    { acc with tasks := acc.tasks ++ [⟨post, name, path⟩] }

/-- One iteration body of the pagination loop (lines 166-203): record the
page into the metadata store, then process each post in order. -/
def processPage (dir : String) (fs : List String) (total : Nat)
    (acc : PagAcc) (posts : List GelbooruPost) : PagAcc :=
  posts.foldl (processPost dir fs total)
    { acc with store := insert_posts acc.store posts }

/-- The pagination loop (lines 163-205): request page `page` with limit
100, abort on a failed search, stop at the first response whose `posts`
is `None`, otherwise process the page and continue at `page + 1`.  The
recursion is fuel-indexed (`none` = fuel exhausted, distinguishing a
truncated model from real termination). -/
def paginate (responses : Nat → Except String GelbooruData) (dir : String)
    (fs : List String) (total : Nat) : Nat → Nat → PagAcc → Option PagResult
  | 0, _, _ => none
  | fuel + 1, page, acc =>
    let acc1 : PagAcc := { acc with fx := acc.fx ++ [.search 100 page] }
    match responses page with
    | .error e => some (.aborted acc1.fx e)
    | .ok data =>
      match data.posts with
      | none => some (.finished acc1)
      | some posts =>
        paginate responses dir fs total fuel (page + 1) (processPage dir fs total acc1 posts)

/-- Boolean success test of a download result. -/
def resOk : Except String Unit → Bool
  | .ok _ => true
  | .error _ => false

/-- Console line of one finished download task (lines 190-198): the
printed counter value `p` is the post-increment value
`processed.fetch_add(1) + 1` (line 188). -/
def taskLine (t : TaskSpec) (res : Except String Unit) (p total : Nat) : OutLine :=
  match res with
  | .ok _ => ⟨t.name, .downloaded, p, total⟩
  | .error e => ⟨t.name, .failed e, p, total⟩

/-- State of the sequential (canonical-schedule) execution of the
spawned tasks: effects, filesystem contents, and the two counters. -/
structure SeqAcc where
  fx : List Effect
  files : List String
  processed : Nat
  written : Nat
deriving DecidableEq

/-- One download task run to completion under the canonical sequential
schedule (lines 184-201): issue the fetch; on success write the file,
print the `downloaded` line and bump both counters; on failure print the
`error` line and bump only `processed`.  The task body itself always
returns `Ok(())` (line 200), so failures never propagate to the join
loop (lines 211-213). -/
def runTask (total : Nat) (acc : SeqAcc) (tr : TaskSpec × Except String Unit) : SeqAcc :=
  match tr.2 with
  | .ok _ =>
    { fx := acc.fx ++ [.fetch tr.1.post.file_url, .writeFile tr.1.path,
        .printLine (taskLine tr.1 tr.2 (acc.processed + 1) total)],
      files := acc.files ++ [tr.1.path],
      processed := acc.processed + 1,
      written := acc.written + 1 }
  | .error _ =>
    { fx := acc.fx ++ [.fetch tr.1.post.file_url,
        .printLine (taskLine tr.1 tr.2 (acc.processed + 1) total)],
      files := acc.files,
      processed := acc.processed + 1,
      written := acc.written }

/-- Sequential execution of every launched task, in launch order, each
paired with its download result. -/
def execSeq (total : Nat) (tasks : List TaskSpec) (oc : List (Except String Unit))
    (acc : SeqAcc) : SeqAcc :=
  (tasks.zip oc).foldl (runTask total) acc

/-- Overall result of one `_main` run past the probe call: the effect
list, the final filesystem contents, and the value `_main` returns. -/
abbrev RunOutput := Option (List Effect × List String × Except String Unit)

/-- Deterministic model of `_main` from line 157 on: run the pagination
loop; on a search failure return its error (no task is spawned — the
`tasks` vector is dropped before the spawn loop at lines 207-210 — and
`json_printer.write()` on line 222 is never reached); otherwise execute
every task, print the summary line (lines 215-220: `written` and
`processed - written`), and emit the metadata store if requested. -/
def runMain (responses : Nat → Except String GelbooruData) (fuel : Nat)
    (dir : String) (fs : List String) (total : Nat)
    (oc : List (Except String Unit)) (emitMeta : Bool) : RunOutput :=
  match paginate responses dir fs total fuel 0 initPagAcc with
  | none => none
  | some (.aborted fx e) => some (fx, fs, .error e)
  | some (.finished acc) =>
    let s := execSeq total acc.tasks oc ⟨acc.fx, fs, acc.processed, 0⟩
    some (s.fx ++ [.printSummary s.written (s.processed - s.written)]
        ++ (if emitMeta then [.emitJson acc.store] else []),
      s.files, .ok ())

/-- Capacity of the admission gate:
`tokio::sync::Semaphore::new(24)` in `GelbooruClient::new` (line 259). -/
def semaphoreCapacity : Nat := 24

/-- Phase of one spawned download task.  `pending`: spawned, waiting on
`semaphore.acquire()` (line 185).  `inflight`: permit held, download in
progress (line 187).  `midway res`: download finished with result `res`,
`processed` bumped and line printed (lines 188-198), `written` bump and
permit release still ahead.  `terminal res`: task body returned; the
permit was released when `_permit` dropped at the end of the block. -/
inductive TaskPhase where
  | pending
  | inflight
  | midway (res : Except String Unit)
  | terminal (res : Except String Unit)
deriving DecidableEq

/-- Shared state of the concurrent download phase: free permits of the
admission gate, the phase of every spawned task, and the two atomic
counters. -/
structure ExecState where
  permits : Nat
  phases : List TaskPhase
  processed : Nat
  written : Nat
deriving DecidableEq

/-- Initial state of the download phase: all permits free, every task
pending, `processed` carrying the pagination-phase skips, `written` 0. -/
def initExec (numTasks initProcessed : Nat) : ExecState :=
  ⟨semaphoreCapacity, List.replicate numTasks .pending, initProcessed, 0⟩

/-- True of a phase holding a gate permit (between `acquire` and the
drop of `_permit`). -/
def phaseActive : TaskPhase → Bool
  | .inflight => true
  | .midway _ => true
  | _ => false

/-- True of a phase whose task has already bumped `processed`. -/
def phaseRecorded : TaskPhase → Bool
  | .midway _ => true
  | .terminal _ => true
  | _ => false

/-- True of a terminal phase that succeeded (bumped `written`). -/
def phaseDoneOk : TaskPhase → Bool
  | .terminal (.ok _) => true
  | _ => false

/-- True of a terminal phase. -/
def phaseDone : TaskPhase → Bool
  | .terminal _ => true
  | _ => false

/-- One interleaved step of the download phase, with the effects it
emits.  `acquire`: a pending task takes a free permit and issues its GET
(lines 185-187).  `record`: an in-flight task's download completes with
its oracle result; on success the file was written; `processed` is
bumped and the line printed with the post-increment value (lines
187-198).  `finish`: the task body ends, bumping `written` on success
and releasing the permit (lines 193, 201). -/
inductive ExecStep (ts : List TaskSpec) (oc : List (Except String Unit)) (total : Nat) :
    ExecState → List Effect → ExecState → Prop where
  | acquire (s : ExecState) (i : Nat) (t : TaskSpec)
      (ht : ts[i]? = some t) (hph : s.phases[i]? = some .pending) (hp : 0 < s.permits) :
      ExecStep ts oc total s [.fetch t.post.file_url]
        { s with permits := s.permits - 1, phases := s.phases.set i .inflight }
  | record (s : ExecState) (i : Nat) (t : TaskSpec) (res : Except String Unit)
      (ht : ts[i]? = some t) (hres : oc[i]? = some res)
      (hph : s.phases[i]? = some .inflight) :
      ExecStep ts oc total s
        ((if resOk res then [.writeFile t.path] else [])
          ++ [.printLine (taskLine t res (s.processed + 1) total)])
        { s with phases := s.phases.set i (.midway res), processed := s.processed + 1 }
  | finish (s : ExecState) (i : Nat) (res : Except String Unit)
      (hph : s.phases[i]? = some (.midway res)) :
      ExecStep ts oc total s []
        { s with
            permits := s.permits + 1
            phases := s.phases.set i (.terminal res)
            written := s.written + (if resOk res then 1 else 0) }

/-- Finite interleaved executions of the download phase, concatenating
the emitted effects. -/
inductive ExecSteps (ts : List TaskSpec) (oc : List (Except String Unit)) (total : Nat) :
    ExecState → List Effect → ExecState → Prop where
  | refl (s : ExecState) : ExecSteps ts oc total s [] s
  | step {s₁ : ExecState} {fx₁ : List Effect} {s₂ : ExecState} {fx₂ : List Effect}
      {s₃ : ExecState} (h₁ : ExecStep ts oc total s₁ fx₁ s₂)
      (h₂ : ExecSteps ts oc total s₂ fx₂ s₃) : ExecSteps ts oc total s₁ (fx₁ ++ fx₂) s₃

/-- Every spawned task has reached a terminal outcome (the join loop of
lines 211-213 has completed). -/
def allTerminal (s : ExecState) : Prop := ∀ ph ∈ s.phases, phaseDone ph = true

instance (s : ExecState) : Decidable (allTerminal s) :=
  inferInstanceAs (Decidable (∀ ph ∈ s.phases, phaseDone ph = true))

/-- Complete effect traces of one run of `_main` past the probe call:
because every task future is pushed into the `tasks` vector (line 202)
and only spawned after the loop (lines 207-210), the trace is the
pagination effects followed by some interleaved execution of the tasks
and the summary line (metadata emission, modelled in `runMain`, would
follow the summary and is irrelevant to trace ordering). -/
def FullRunTrace (responses : Nat → Except String GelbooruData) (fuel : Nat)
    (dir : String) (fs : List String) (total : Nat)
    (oc : List (Except String Unit)) (fx : List Effect) : Prop :=
  ∃ acc fx₂ s,
    paginate responses dir fs total fuel 0 initPagAcc = some (.finished acc) ∧
    ExecSteps acc.tasks oc total (initExec acc.tasks.length acc.processed) fx₂ s ∧
    allTerminal s ∧
    fx = acc.fx ++ fx₂ ++ [.printSummary s.written (s.processed - s.written)]

/-- True of a `search` effect. -/
def isSearchE : Effect → Bool
  | .search _ _ => true
  | _ => false

/-- Effects the pagination loop can emit: search requests and
`already exists` lines. -/
def pagShape : Effect → Bool
  | .search _ _ => true
  | .printLine l => match l.tag with | .alreadyExists => true | _ => false
  | _ => false

/-- Effects a download task can emit: fetches, file writes, lines. -/
def execShape : Effect → Bool
  | .fetch _ => true
  | .writeFile _ => true
  | .printLine _ => true
  | _ => false

/-- Effect list of a pagination outcome. -/
def pagFxOf : Option PagResult → List Effect
  | some (.aborted fx _) => fx
  | some (.finished a) => a.fx
  | none => []

/-- Search requests of a finished pagination. -/
def pagSearchFx (r : Option PagResult) : List Effect :=
  (pagFxOf r).filter isSearchE

/-- True iff pagination finished normally. -/
def pagFinished : Option PagResult → Bool
  | some (.finished _) => true
  | _ => false

/-- Tasks created by a finished pagination. -/
def pagTasksOf : Option PagResult → List TaskSpec
  | some (.finished a) => a.tasks
  | _ => []

/-- Skips recorded by a finished pagination. -/
def pagSkipsOf : Option PagResult → List TaskSpec
  | some (.finished a) => a.skips
  | _ => []

/-- Effect list of a run. -/
def runFx : RunOutput → List Effect
  | some (fx, _, _) => fx
  | none => []

/-- Final filesystem contents of a run. -/
def runFilesOf : RunOutput → List String
  | some (_, fls, _) => fls
  | none => []

/-- Value `_main` returned, when the model did not run out of fuel. -/
def runResOf : RunOutput → Option (Except String Unit)
  | some (_, _, r) => some r
  | none => none

/-- Concrete post used in witnesses: all fields populated, media file
`h/a.png`, content hash `m1`. -/
def postA : GelbooruPost :=
  ⟨1, "t0", 3, 10, 20, "m1", "d", "a.png", "safe", "src", 7, "own", 2, 0, 0,
    5, 5, "tag1 tag2", "", "false", "false", "h/a.png", "h/pa.png", "h/sa.png",
    10, 20, "active", 0, "false"⟩

/-- Second concrete post, media file `h/b.png`, content hash `m2`. -/
def postB : GelbooruPost :=
  { postA with id := 2, md5 := "m2", image := "b.png", file_url := "h/b.png" }

/-- Post sharing `postA`'s content hash `m1` but with differing fields. -/
def postQ : GelbooruPost :=
  { postA with id := 9, title := "q", score := 4 }

/-- Work item of `postA` relative to output directory `o`. -/
def taskA : TaskSpec := ⟨postA, "a.png", "o/a.png"⟩

/-- Response oracle with a single one-item page: page 0 holds `postA`,
page 1 reports an absent item list. -/
def respW : Nat → Except String GelbooruData := fun n =>
  if n = 0 then .ok ⟨⟨1⟩, some [postA]⟩ else .ok ⟨⟨1⟩, none⟩

/-- Response oracle whose page 0 carries an empty (but present) item
list and whose page 1 reports an absent one. -/
def respEmptyPage : Nat → Except String GelbooruData := fun n =>
  if n = 0 then .ok ⟨⟨5⟩, some []⟩ else .ok ⟨⟨5⟩, none⟩

/-- Response oracle failing at page 1 after a one-item page 0. -/
def respErr : Nat → Except String GelbooruData := fun n =>
  if n = 0 then .ok ⟨⟨2⟩, some [postA]⟩
  else if n = 1 then .error "boom"
  else .ok ⟨⟨2⟩, none⟩

/-- Response oracle with two one-item pages, then an absent list. -/
def respTwo : Nat → Except String GelbooruData := fun n =>
  if n = 0 then .ok ⟨⟨2⟩, some [postA]⟩
  else if n = 1 then .ok ⟨⟨2⟩, some [postB]⟩
  else .ok ⟨⟨2⟩, none⟩

/-- Task list of the one-item witness run. -/
def tasksW : List TaskSpec := [taskA]

/-- Download results of the one-item witness run: the single task
succeeds. -/
def ocW : List (Except String Unit) := [.ok ()]

/-- Pagination outcome of the witness run `respW`. -/
def accW : PagAcc :=
  ⟨[.search 100 0, .search 100 1], [], [taskA], [("m1", postA)], 0⟩

/-- Witness download-phase states: initial. -/
def sW0 : ExecState := initExec 1 0

/-- Witness download-phase states: after `acquire`. -/
def sW1 : ExecState := ⟨23, [.inflight], 0, 0⟩

/-- Witness download-phase states: after `record`. -/
def sW2 : ExecState := ⟨23, [.midway (.ok ())], 1, 0⟩

/-- Witness download-phase states: after `finish`. -/
def sW3 : ExecState := ⟨24, [.terminal (.ok ())], 1, 1⟩

/-- Effects of the witness download phase. -/
def fx2W : List Effect :=
  [.fetch "h/a.png", .writeFile "o/a.png", .printLine ⟨"a.png", .downloaded, 1, 1⟩]

/-- Complete effect trace of the witness run. -/
def fxW : List Effect := accW.fx ++ fx2W ++ [.printSummary 1 0]

/-- Inductive invariant of the download phase: free permits plus
permit-holding tasks equal the gate capacity; `processed` equals its
initial value plus the tasks past their increment; `written` counts the
successfully terminated tasks; and every recorded result agrees with the
download oracle. -/
def ExecInv (oc : List (Except String Unit)) (initP : Nat) (s : ExecState) : Prop :=
  s.permits + s.phases.countP phaseActive = semaphoreCapacity ∧
  s.processed = initP + s.phases.countP phaseRecorded ∧
  s.written = s.phases.countP phaseDoneOk ∧
  (∀ (i : Nat) (r : Except String Unit),
    s.phases[i]? = some (.midway r) ∨ s.phases[i]? = some (.terminal r) →
    oc[i]? = some r)

/-! ### Lemmas about the metadata store -/

theorem insertPost_of_mem (m : List (String × GelbooruPost)) (p : GelbooruPost)
    (h : m.any (fun e => e.1 == p.md5) = true) :
    insertPost m p = m.map (fun e => if e.1 == p.md5 then (e.1, p) else e) := by
  simp only [insertPost, h, if_true]

theorem insertPost_of_not_mem (m : List (String × GelbooruPost)) (p : GelbooruPost)
    (h : m.any (fun e => e.1 == p.md5) = false) :
    insertPost m p = m ++ [(p.md5, p)] := by
  simp only [insertPost, h, Bool.false_eq_true, if_false]

theorem replace_key_preserved (p : GelbooruPost) (h : String) :
    (fun e : String × GelbooruPost =>
      (if e.1 == p.md5 then (e.1, p) else e).1 == h) = (fun e => e.1 == h) := by
  funext e
  by_cases hc : e.1 == p.md5 <;> simp [hc]

theorem keyCount_map_replace (m : List (String × GelbooruPost)) (p : GelbooruPost)
    (h : String) :
    keyCount (m.map (fun e => if e.1 == p.md5 then (e.1, p) else e)) h = keyCount m h := by
  unfold keyCount
  rw [List.countP_map]
  rw [show ((fun e : String × GelbooruPost => e.1 == h) ∘
      (fun e => if e.1 == p.md5 then (e.1, p) else e))
      = (fun e : String × GelbooruPost =>
        (if e.1 == p.md5 then (e.1, p) else e).1 == h) from rfl]
  rw [replace_key_preserved]

theorem keyCount_insertPost_same (m : List (String × GelbooruPost)) (p : GelbooruPost)
    (h : String) (hs : p.md5 = h) :
    keyCount (insertPost m p) h = max 1 (keyCount m h) := by
  by_cases hany : m.any (fun e => e.1 == p.md5)
  · rw [insertPost_of_mem m p hany, keyCount_map_replace]
    have h2 : 0 < keyCount m h := by
      unfold keyCount
      rw [List.countP_pos_iff]
      rcases List.any_eq_true.mp hany with ⟨e, he, hpe⟩
      exact ⟨e, he, by rw [← hs]; exact hpe⟩
    omega
  · rw [Bool.not_eq_true] at hany
    rw [insertPost_of_not_mem m p hany]
    have h2 : keyCount m h = 0 := by
      unfold keyCount
      rw [List.countP_eq_zero]
      intro e he
      have := List.any_eq_false.mp hany e he
      rw [← hs]
      exact this
    unfold keyCount at h2 ⊢
    rw [List.countP_append, h2]
    simp [hs]

theorem keyCount_insertPost_ne (m : List (String × GelbooruPost)) (p : GelbooruPost)
    (h : String) (hs : p.md5 ≠ h) :
    keyCount (insertPost m p) h = keyCount m h := by
  by_cases hany : m.any (fun e => e.1 == p.md5)
  · rw [insertPost_of_mem m p hany, keyCount_map_replace]
  · rw [Bool.not_eq_true] at hany
    rw [insertPost_of_not_mem m p hany]
    unfold keyCount
    rw [List.countP_append]
    simp [hs]

theorem keyCount_le_insertPost (m : List (String × GelbooruPost)) (p : GelbooruPost)
    (h : String) : keyCount m h ≤ keyCount (insertPost m p) h := by
  by_cases hs : p.md5 = h
  · rw [keyCount_insertPost_same m p h hs]; omega
  · rw [keyCount_insertPost_ne m p h hs]

theorem keyCount_le_insert_posts (ps : List GelbooruPost) :
    ∀ (m : List (String × GelbooruPost)) (h : String),
    keyCount m h ≤ keyCount (insert_posts m ps) h := by
  induction ps with
  | nil => intro m h; exact Nat.le_refl _
  | cons p ps ih =>
    intro m h
    calc keyCount m h ≤ keyCount (insertPost m p) h := keyCount_le_insertPost m p h
      _ ≤ _ := ih (insertPost m p) h

theorem keyCount_insert_posts_le_one (ps : List GelbooruPost) :
    ∀ (m : List (String × GelbooruPost)) (h : String),
    keyCount m h ≤ 1 → keyCount (insert_posts m ps) h ≤ 1 := by
  induction ps with
  | nil => intro m h hle; exact hle
  | cons p ps ih =>
    intro m h hle
    apply ih
    by_cases hs : p.md5 = h
    · rw [keyCount_insertPost_same m p h hs]; omega
    · rw [keyCount_insertPost_ne m p h hs]; exact hle

theorem keyCount_insert_posts_pos (ps : List GelbooruPost) :
    ∀ (m : List (String × GelbooruPost)) (h : String),
    (∃ p ∈ ps, p.md5 = h) → 1 ≤ keyCount (insert_posts m ps) h := by
  induction ps with
  | nil => intro m h hex; rcases hex with ⟨p, hp, _⟩; cases hp
  | cons p ps ih =>
    intro m h hex
    rcases hex with ⟨r, hr, hrh⟩
    rcases List.mem_cons.mp hr with heq | hmem
    · subst heq
      calc (1 : Nat) ≤ keyCount (insertPost m r) h := by
            rw [keyCount_insertPost_same m r h hrh]; omega
        _ ≤ _ := keyCount_le_insert_posts ps (insertPost m r) h
    · exact ih (insertPost m p) h ⟨r, hmem, hrh⟩

theorem find_map_replace_self (p : GelbooruPost) :
    ∀ m : List (String × GelbooruPost), m.any (fun e => e.1 == p.md5) = true →
    ∃ k, (m.map (fun e => if e.1 == p.md5 then (e.1, p) else e)).find?
      (fun e => e.1 == p.md5) = some (k, p) := by
  intro m
  induction m with
  | nil => intro hany; simp at hany
  | cons e m ih =>
    intro hany
    by_cases he : e.1 == p.md5
    · refine ⟨e.1, ?_⟩
      simp only [List.map_cons, he, if_true, List.find?_cons]
    · have htail : m.any (fun e => e.1 == p.md5) = true := by
        rcases List.any_eq_true.mp hany with ⟨x, hx, hpx⟩
        rcases List.mem_cons.mp hx with rfl | hxm
        · exact absurd hpx he
        · exact List.any_eq_true.mpr ⟨x, hxm, hpx⟩
      rcases ih htail with ⟨k, hk⟩
      refine ⟨k, ?_⟩
      have hef : (e.1 == p.md5) = false := by simpa using he
      simp only [List.map_cons, hef, Bool.false_eq_true, if_false, List.find?_cons]
      exact hk

theorem find_append_single_self (p : GelbooruPost) :
    ∀ m : List (String × GelbooruPost), m.any (fun e => e.1 == p.md5) = false →
    (m ++ [(p.md5, p)]).find? (fun e => e.1 == p.md5) = some (p.md5, p) := by
  intro m
  induction m with
  | nil => simp [List.find?_cons]
  | cons e m ih =>
    intro hany
    have he : (e.1 == p.md5) = false := by
      have := List.any_eq_false.mp hany e (List.mem_cons_self e m)
      simpa using this
    have htail : m.any (fun e => e.1 == p.md5) = false := by
      rw [List.any_eq_false]
      intro x hx
      exact List.any_eq_false.mp hany x (List.mem_cons_of_mem e hx)
    simp only [List.cons_append, List.find?_cons, he]
    exact ih htail

theorem storeLookup_insertPost_self (m : List (String × GelbooruPost)) (p : GelbooruPost) :
    storeLookup (insertPost m p) p.md5 = some p := by
  by_cases hany : m.any (fun e => e.1 == p.md5)
  · rw [insertPost_of_mem m p hany]
    rcases find_map_replace_self p m hany with ⟨k, hk⟩
    unfold storeLookup
    rw [hk]
    rfl
  · rw [Bool.not_eq_true] at hany
    rw [insertPost_of_not_mem m p hany]
    unfold storeLookup
    rw [find_append_single_self p m hany]
    rfl

theorem find_map_replace_ne (p : GelbooruPost) (h : String) (hne : h ≠ p.md5) :
    ∀ m : List (String × GelbooruPost),
    (m.map (fun e => if e.1 == p.md5 then (e.1, p) else e)).find? (fun e => e.1 == h)
      = m.find? (fun e => e.1 == h) := by
  intro m
  induction m with
  | nil => rfl
  | cons e m ih =>
    by_cases hpe : e.1 == p.md5
    · have hek : e.1 = p.md5 := by simpa using hpe
      have heh : (e.1 == h) = false := by
        rw [hek]
        exact beq_eq_false_iff_ne.mpr (Ne.symm hne)
      simp only [List.map_cons, hpe, if_true, List.find?_cons, heh]
      exact ih
    · simp only [List.map_cons, hpe, Bool.false_eq_true, if_false, List.find?_cons]
      by_cases heh : e.1 == h
      · simp [heh]
      · simp only [heh]
        exact ih

theorem find_append_single_ne (p : GelbooruPost) (h : String) (hne : h ≠ p.md5) :
    ∀ m : List (String × GelbooruPost),
    (m ++ [(p.md5, p)]).find? (fun e => e.1 == h) = m.find? (fun e => e.1 == h) := by
  intro m
  induction m with
  | nil =>
    have hph : (p.md5 == h) = false := beq_eq_false_iff_ne.mpr (Ne.symm hne)
    simp only [List.nil_append, List.find?_cons, hph]
  | cons e m ih =>
    simp only [List.cons_append, List.find?_cons]
    by_cases heh : e.1 == h
    · simp [heh]
    · simp only [heh]
      exact ih

theorem storeLookup_insertPost_ne (m : List (String × GelbooruPost)) (p : GelbooruPost)
    (h : String) (hne : h ≠ p.md5) :
    storeLookup (insertPost m p) h = storeLookup m h := by
  by_cases hany : m.any (fun e => e.1 == p.md5)
  · rw [insertPost_of_mem m p hany]
    unfold storeLookup
    rw [find_map_replace_ne p h hne m]
  · rw [Bool.not_eq_true] at hany
    rw [insertPost_of_not_mem m p hany]
    unfold storeLookup
    rw [find_append_single_ne p h hne m]

theorem storeLookup_insert_posts_no_key (ps : List GelbooruPost) :
    ∀ (m : List (String × GelbooruPost)) (h : String),
    (∀ r ∈ ps, r.md5 ≠ h) → storeLookup (insert_posts m ps) h = storeLookup m h := by
  induction ps with
  | nil => intro m h _; rfl
  | cons p ps ih =>
    intro m h hall
    have h1 : storeLookup (insert_posts (insertPost m p) ps) h
        = storeLookup (insertPost m p) h :=
      ih (insertPost m p) h (fun r hr => hall r (List.mem_cons_of_mem p hr))
    have h2 : storeLookup (insertPost m p) h = storeLookup m h :=
      storeLookup_insertPost_ne m p h
        (fun hc => hall p (List.mem_cons_self p ps) hc.symm)
    exact h1.trans h2

theorem insertPost_idem (m : List (String × GelbooruPost)) (p : GelbooruPost) :
    insertPost (insertPost m p) p = insertPost m p := by
  by_cases hany : m.any (fun e => e.1 == p.md5)
  · rw [insertPost_of_mem m p hany]
    have hany2 : (m.map (fun e => if e.1 == p.md5 then (e.1, p) else e)).any
        (fun e => e.1 == p.md5) = true := by
      rcases List.any_eq_true.mp hany with ⟨e, he, hpe⟩
      refine List.any_eq_true.mpr ⟨(e.1, p), List.mem_map.mpr ⟨e, he, by simp [hpe]⟩, by
        simpa using hpe⟩
    rw [insertPost_of_mem _ p hany2, List.map_map]
    congr 1
    funext e
    by_cases hpe : e.1 == p.md5 <;> simp [Function.comp, hpe]
  · rw [Bool.not_eq_true] at hany
    rw [insertPost_of_not_mem m p hany]
    have hany2 : (m ++ [(p.md5, p)]).any (fun e => e.1 == p.md5) = true :=
      List.any_eq_true.mpr ⟨(p.md5, p), List.mem_append_right m (by simp), by simp⟩
    rw [insertPost_of_mem _ p hany2, List.map_append]
    have hm : m.map (fun e => if e.1 == p.md5 then (e.1, p) else e) = m := by
      have : ∀ e ∈ m, (if e.1 == p.md5 then (e.1, p) else e) = e := by
        intro e he
        have := List.any_eq_false.mp hany e he
        simp [this]
      calc m.map (fun e => if e.1 == p.md5 then (e.1, p) else e) = m.map id :=
            List.map_congr_left this
        _ = m := List.map_id m
    rw [hm]
    simp

/-- C7: recording pages into the metadata store is keyed by content hash
with last-write-wins — merging two pages that both contain an item with
hash `p.md5` (with arbitrary, possibly differing, field values) yields
exactly one entry for that hash, holding the value of the last such item
of the later page, and recording the same item twice is a no-op beyond
overwriting with identical data. -/
theorem store_last_write_wins (P₁ P₂ A B : List GelbooruPost)
    (p q : GelbooruPost) (hp : p ∈ P₁) (hq : P₂ = A ++ q :: B)
    (hmd : q.md5 = p.md5) (hlast : ∀ r ∈ B, r.md5 ≠ p.md5) :
    keyCount (insert_posts (insert_posts [] P₁) P₂) p.md5 = 1 ∧
    storeLookup (insert_posts (insert_posts [] P₁) P₂) p.md5 = some q ∧
    ∀ (m : List (String × GelbooruPost)) (r : GelbooruPost),
      insertPost (insertPost m r) r = insertPost m r := by
  refine ⟨?_, ?_, fun m r => insertPost_idem m r⟩
  · have hle : keyCount (insert_posts (insert_posts [] P₁) P₂) p.md5 ≤ 1 :=
      keyCount_insert_posts_le_one P₂ _ _
        (keyCount_insert_posts_le_one P₁ [] _ (by simp [keyCount]))
    have hge : 1 ≤ keyCount (insert_posts [] P₁) p.md5 :=
      keyCount_insert_posts_pos P₁ [] p.md5 ⟨p, hp, rfl⟩
    have hge2 := le_trans hge (keyCount_le_insert_posts P₂ _ p.md5)
    omega
  · subst hq
    rw [show insert_posts (insert_posts [] P₁) (A ++ q :: B)
        = insert_posts (insertPost (insert_posts (insert_posts [] P₁) A) q) B by
      unfold insert_posts
      rw [List.foldl_append, List.foldl_cons]]
    rw [storeLookup_insert_posts_no_key B _ p.md5 hlast]
    rw [← hmd]
    exact storeLookup_insertPost_self _ q

/-- Witness for C7 at the concrete pages `[postA]` and `[postQ]`, which
share the hash `m1` but differ in fields. -/
theorem store_last_write_wins_witness :
    postA ∈ [postA] ∧ postQ.md5 = postA.md5 ∧
    keyCount (insert_posts (insert_posts [] [postA]) [postQ]) postA.md5 = 1 ∧
    storeLookup (insert_posts (insert_posts [] [postA]) [postQ]) postA.md5 = some postQ := by
  have h := store_last_write_wins [postA] [postQ] [] [] postA postQ
    (List.mem_singleton.mpr rfl) rfl rfl (by intro r hr; cases hr)
  exact ⟨List.mem_singleton.mpr rfl, rfl, h.1, h.2.1⟩

/-! ### Lemmas about the pagination loop -/

theorem processPost_fx (dir : String) (fs : List String) (total : Nat)
    (acc : PagAcc) (post : GelbooruPost) :
    (processPost dir fs total acc post).fx = acc.fx ∨
    ∃ l : OutLine, l.tag = .alreadyExists ∧
      (processPost dir fs total acc post).fx = acc.fx ++ [.printLine l] := by
  by_cases hmem : pathJoin dir (actual_filename post.file_url) ∈ fs
  · right
    exact ⟨⟨actual_filename post.file_url, .alreadyExists, acc.processed, total⟩, rfl,
      by simp [processPost, hmem]⟩
  · left
    simp [processPost, hmem]

theorem foldl_processPost_search_fx (dir : String) (fs : List String) (total : Nat) :
    ∀ (posts : List GelbooruPost) (acc : PagAcc),
    (posts.foldl (processPost dir fs total) acc).fx.filter isSearchE
      = acc.fx.filter isSearchE := by
  intro posts
  induction posts with
  | nil => intro acc; rfl
  | cons p ps ih =>
    intro acc
    rw [List.foldl_cons, ih]
    rcases processPost_fx dir fs total acc p with h | ⟨l, _, h⟩
    · rw [h]
    · rw [h, List.filter_append]
      simp [isSearchE]

theorem processPage_search_fx (dir : String) (fs : List String) (total : Nat)
    (posts : List GelbooruPost) (acc : PagAcc) :
    (processPage dir fs total acc posts).fx.filter isSearchE
      = acc.fx.filter isSearchE := by
  unfold processPage
  rw [foldl_processPost_search_fx]

theorem foldl_processPost_fx_mem (dir : String) (fs : List String) (total : Nat) :
    ∀ (posts : List GelbooruPost) (acc : PagAcc) (e : Effect),
    e ∈ (posts.foldl (processPost dir fs total) acc).fx →
    e ∈ acc.fx ∨ pagShape e = true := by
  intro posts
  induction posts with
  | nil => intro acc e he; exact Or.inl he
  | cons p ps ih =>
    intro acc e he
    rw [List.foldl_cons] at he
    rcases ih (processPost dir fs total acc p) e he with h | h
    · rcases processPost_fx dir fs total acc p with hfx | ⟨l, hl, hfx⟩
      · rw [hfx] at h; exact Or.inl h
      · rw [hfx] at h
        rcases List.mem_append.mp h with h' | h'
        · exact Or.inl h'
        · right
          have : e = .printLine l := by simpa using h'
          rw [this]
          simp [pagShape, hl]
    · exact Or.inr h

theorem processPage_fx_mem (dir : String) (fs : List String) (total : Nat)
    (posts : List GelbooruPost) (acc : PagAcc) (e : Effect)
    (he : e ∈ (processPage dir fs total acc posts).fx) :
    e ∈ acc.fx ∨ pagShape e = true := by
  unfold processPage at he
  exact foldl_processPost_fx_mem dir fs total posts
    { acc with store := insert_posts acc.store posts } e he

theorem paginate_fx_mem (responses : Nat → Except String GelbooruData)
    (dir : String) (fs : List String) (total : Nat) :
    ∀ (fuel page : Nat) (acc : PagAcc) (r : PagResult),
    paginate responses dir fs total fuel page acc = some r →
    ∀ e ∈ pagFxOf (some r), e ∈ acc.fx ∨ pagShape e = true := by
  intro fuel
  induction fuel with
  | zero => intro page acc r h; cases h
  | succ fuel ih =>
    intro page acc r h e he
    rw [paginate] at h
    rcases hresp : responses page with err | data
    · rw [hresp] at h
      simp only [] at h
      cases h
      simp only [pagFxOf] at he
      rcases List.mem_append.mp he with h' | h'
      · exact Or.inl h'
      · right
        have : e = .search 100 page := by simpa using h'
        rw [this]; rfl
    · rw [hresp] at h
      rcases hposts : data.posts with _ | posts
    
      · obtain ⟨attrs, dposts⟩ := data
        simp only at hposts
        subst hposts
        simp only [] at h
        cases h
        simp only [pagFxOf] at he
        rcases List.mem_append.mp he with h' | h'
        · exact Or.inl h'
        · right
          have : e = .search 100 page := by simpa using h'
          rw [this]; rfl
      · obtain ⟨attrs, dposts⟩ := data
        simp only at hposts
        subst hposts
        simp only [] at h
        rcases ih (page + 1) _ r h e he with h' | h'
        · rcases processPage_fx_mem dir fs total posts _ e h' with h'' | h''
          · rcases List.mem_append.mp h'' with h3 | h3
            · exact Or.inl h3
            · right
              have : e = .search 100 page := by simpa using h3
              rw [this]; rfl
          · exact Or.inr h''
        · exact Or.inr h'

theorem range_map_search_shift (page n : Nat) :
    (List.range (n + 1 + 1)).map (fun j => Effect.search 100 (page + j))
      = Effect.search 100 page
        :: (List.range (n + 1)).map (fun j => Effect.search 100 (page + 1 + j)) := by
  rw [List.range_succ_eq_map (n + 1)]
  rw [List.map_cons, List.map_map]
  congr 1
  apply List.map_congr_left
  intro a _
  simp only [Function.comp_apply]
  congr 1
  omega

theorem paginate_requests (responses : Nat → Except String GelbooruData)
    (dir : String) (fs : List String) (total : Nat) :
    ∀ (k fuel page : Nat) (acc : PagAcc),
    (∀ j, j < k → ∃ d ps, responses (page + j) = .ok d ∧ d.posts = some ps) →
    (∃ d, responses (page + k) = .ok d ∧ d.posts = none) →
    k < fuel →
    ∃ acc2, paginate responses dir fs total fuel page acc = some (.finished acc2) ∧
      acc2.fx.filter isSearchE = acc.fx.filter isSearchE
        ++ (List.range (k + 1)).map (fun j => Effect.search 100 (page + j)) := by
  intro k
  induction k with
  | zero =>
    intro fuel page acc _ hstop hfuel
    rcases hstop with ⟨d, hd, hdn⟩
    obtain ⟨attrs, dposts⟩ := d
    simp only at hdn
    subst hdn
    rw [Nat.add_zero] at hd
    obtain ⟨fuel', rfl⟩ : ∃ fuel', fuel = fuel' + 1 := ⟨fuel - 1, by omega⟩
    refine ⟨{ acc with fx := acc.fx ++ [.search 100 page] }, ?_, ?_⟩
    · simp only [paginate, hd]
    · simp [List.filter_append, isSearchE, List.range_succ]
  | succ k ih =>
    intro fuel page acc hall hstop hfuel
    obtain ⟨fuel', rfl⟩ : ∃ fuel', fuel = fuel' + 1 := ⟨fuel - 1, by omega⟩
    rcases hall 0 (by omega) with ⟨d, ps, hd, hdp⟩
    obtain ⟨attrs, dposts⟩ := d
    simp only at hdp
    subst hdp
    rw [Nat.add_zero] at hd
    have hall' : ∀ j, j < k → ∃ d ps, responses (page + 1 + j) = .ok d ∧ d.posts = some ps := by
      intro j hj
      rcases hall (j + 1) (by omega) with ⟨d, ps', h1, h2⟩
      rw [show page + (j + 1) = page + 1 + j from by omega] at h1
      exact ⟨d, ps', h1, h2⟩
    have hstop' : ∃ d, responses (page + 1 + k) = .ok d ∧ d.posts = none := by
      rcases hstop with ⟨d, h1, h2⟩
      rw [show page + (k + 1) = page + 1 + k from by omega] at h1
      exact ⟨d, h1, h2⟩
    rcases ih fuel' (page + 1)
        (processPage dir fs total { acc with fx := acc.fx ++ [.search 100 page] } ps)
        hall' hstop' (by omega) with ⟨acc2, hpag, hfx⟩
    refine ⟨acc2, ?_, ?_⟩
    · simp only [paginate, hd]
      exact hpag
    · rw [hfx, processPage_search_fx]
      simp only [List.filter_append]
      rw [show (List.filter isSearchE [Effect.search 100 page]) = [Effect.search 100 page]
        from rfl]
      rw [range_map_search_shift page k]
      simp [List.append_assoc]

/-- C1 (amended): the pagination driver requests pages with page size
100 at offsets 0, 1, ..., m and stops requesting at the first returned
page whose item sequence is absent (`posts = none`, offset m here).  A
page carrying an empty but present item list does not end pagination:
only an absent one does (see the counterexample). -/
theorem pagination_requests_until_absent (responses : Nat → Except String GelbooruData)
    (dir : String) (fs : List String) (total m fuel : Nat)
    (hall : ∀ j, j < m → ∃ d ps, responses j = .ok d ∧ d.posts = some ps)
    (hstop : ∃ d, responses m = .ok d ∧ d.posts = none)
    (hfuel : m < fuel) :
    pagFinished (paginate responses dir fs total fuel 0 initPagAcc) = true ∧
    pagSearchFx (paginate responses dir fs total fuel 0 initPagAcc)
      = (List.range (m + 1)).map (fun j => Effect.search 100 j) := by
  have hall0 : ∀ j, j < m → ∃ d ps, responses (0 + j) = .ok d ∧ d.posts = some ps := by
    intro j hj
    rcases hall j hj with ⟨d, ps, h1, h2⟩
    exact ⟨d, ps, by rwa [Nat.zero_add], h2⟩
  have hstop0 : ∃ d, responses (0 + m) = .ok d ∧ d.posts = none := by
    rcases hstop with ⟨d, h1, h2⟩
    exact ⟨d, by rwa [Nat.zero_add], h2⟩
  rcases paginate_requests responses dir fs total m fuel 0 initPagAcc hall0 hstop0 hfuel
    with ⟨acc2, hpag, hfx⟩
  rw [hpag]
  refine ⟨rfl, ?_⟩
  show acc2.fx.filter isSearchE = _
  rw [hfx]
  show (List.range (m + 1)).map (fun j => Effect.search 100 (0 + j)) = _
  apply List.map_congr_left
  intro a _
  rw [Nat.zero_add]

/-- Witness for the amended C1 on `respW`: pages 0 and 1 are requested
with limit 100, page 1 being the first with an absent item list. -/
theorem pagination_requests_until_absent_witness :
    pagFinished (paginate respW "o" [] 1 4 0 initPagAcc) = true ∧
    pagSearchFx (paginate respW "o" [] 1 4 0 initPagAcc)
      = (List.range 2).map (fun j => Effect.search 100 j) :=
  pagination_requests_until_absent respW "o" [] 1 1 4
    (by
      intro j hj
      have hj0 : j = 0 := by omega
      subst hj0
      exact ⟨⟨⟨1⟩, some [postA]⟩, [postA], rfl, rfl⟩)
    ⟨⟨⟨1⟩, none⟩, rfl, rfl⟩ (by omega)

/-- Counterexample for C1 as stated: page 0 of `respEmptyPage` carries
an empty (but present) item list, yet pagination does not end there —
the driver still requests offset 1 (which then reports an absent list),
so an empty page does not stop the enumeration loop. -/
theorem pagination_empty_page_does_not_stop :
    respEmptyPage 0 = .ok ⟨⟨5⟩, some []⟩ ∧
    paginate respEmptyPage "o" [] 5 3 0 initPagAcc
      = some (.finished ⟨[.search 100 0, .search 100 1], [], [], [], 0⟩) ∧
    Effect.search 100 1 ∈ pagSearchFx (paginate respEmptyPage "o" [] 5 3 0 initPagAcc) :=
  ⟨rfl, by decide, by decide⟩

theorem paginate_aborts (responses : Nat → Except String GelbooruData)
    (dir : String) (fs : List String) (total : Nat) :
    ∀ (k fuel page : Nat) (acc : PagAcc) (err : String),
    (∀ j, j < k → ∃ d ps, responses (page + j) = .ok d ∧ d.posts = some ps) →
    responses (page + k) = .error err →
    k < fuel →
    ∃ fx, paginate responses dir fs total fuel page acc = some (.aborted fx err) := by
  intro k
  induction k with
  | zero =>
    intro fuel page acc err _ herr hfuel
    rw [Nat.add_zero] at herr
    obtain ⟨fuel', rfl⟩ : ∃ fuel', fuel = fuel' + 1 := ⟨fuel - 1, by omega⟩
    refine ⟨acc.fx ++ [Effect.search 100 page], ?_⟩
    simp only [paginate, herr]
  | succ k ih =>
    intro fuel page acc err hall herr hfuel
    obtain ⟨fuel', rfl⟩ : ∃ fuel', fuel = fuel' + 1 := ⟨fuel - 1, by omega⟩
    rcases hall 0 (by omega) with ⟨d, ps, hd, hdp⟩
    obtain ⟨attrs, dposts⟩ := d
    simp only at hdp
    subst hdp
    rw [Nat.add_zero] at hd
    have hall' : ∀ j, j < k → ∃ d ps, responses (page + 1 + j) = .ok d ∧ d.posts = some ps := by
      intro j hj
      rcases hall (j + 1) (by omega) with ⟨d, ps', h1, h2⟩
      rw [show page + (j + 1) = page + 1 + j from by omega] at h1
      exact ⟨d, ps', h1, h2⟩
    have herr' : responses (page + 1 + k) = .error err := by
      rw [show page + 1 + k = page + (k + 1) from by omega]
      exact herr
    rcases ih fuel' (page + 1)
        (processPage dir fs total { acc with fx := acc.fx ++ [.search 100 page] } ps)
        err hall' herr' (by omega) with ⟨fx, hpag⟩
    refine ⟨fx, ?_⟩
    simp only [paginate, hd]
    exact hpag

/-- C9: a transport or decode error during any search (pagination) call
is fatal — `_main` returns that error, no download of any item (also of
items discovered on earlier pages) is performed, and no metadata output
is produced: the run's effects contain no fetch and no emit. -/
theorem search_error_is_fatal (responses : Nat → Except String GelbooruData)
    (dir : String) (fs : List String) (total fuel k : Nat)
    (oc : List (Except String Unit)) (emitMeta : Bool) (err : String)
    (hall : ∀ j, j < k → ∃ d ps, responses j = .ok d ∧ d.posts = some ps)
    (herr : responses k = .error err)
    (hfuel : k < fuel) :
    runResOf (runMain responses fuel dir fs total oc emitMeta) = some (.error err) ∧
    (∀ u, Effect.fetch u ∉ runFx (runMain responses fuel dir fs total oc emitMeta)) ∧
    (∀ m, Effect.emitJson m ∉ runFx (runMain responses fuel dir fs total oc emitMeta)) := by
  have hall0 : ∀ j, j < k → ∃ d ps, responses (0 + j) = .ok d ∧ d.posts = some ps := by
    intro j hj
    rcases hall j hj with ⟨d, ps, h1, h2⟩
    exact ⟨d, ps, by rwa [Nat.zero_add], h2⟩
  have herr0 : responses (0 + k) = .error err := by rwa [Nat.zero_add]
  rcases paginate_aborts responses dir fs total k fuel 0 initPagAcc err hall0 herr0 hfuel
    with ⟨fx, hpag⟩
  have hshape : ∀ e ∈ fx, pagShape e = true := by
    intro e he
    rcases paginate_fx_mem responses dir fs total fuel 0 initPagAcc (.aborted fx err)
        hpag e he with h | h
    · simp [initPagAcc] at h
    · exact h
  simp only [runMain, hpag]
  refine ⟨rfl, ?_, ?_⟩
  · intro u hu
    have h1 : Effect.fetch u ∈ fx := by simpa [runFx] using hu
    have := hshape _ h1
    simp [pagShape] at this
  · intro m hm
    have h1 : Effect.emitJson m ∈ fx := by simpa [runFx] using hm
    have := hshape _ h1
    simp [pagShape] at this

/-- Witness for C9 on `respErr`, which fails at page 1: the run returns
the error, performs no fetch and emits no metadata. -/
theorem search_error_is_fatal_witness :
    runResOf (runMain respErr 4 "o" [] 2 [] false) = some (.error "boom") ∧
    Effect.fetch "h/a.png" ∉ runFx (runMain respErr 4 "o" [] 2 [] false) ∧
    Effect.emitJson [("m1", postA)] ∉ runFx (runMain respErr 4 "o" [] 2 [] false) := by
  have h := search_error_is_fatal respErr "o" [] 2 4 1 [] false "boom"
    (by
      intro j hj
      have hj0 : j = 0 := by omega
      subst hj0
      exact ⟨⟨⟨2⟩, some [postA]⟩, [postA], rfl, rfl⟩)
    rfl (by omega)
  exact ⟨h.1, h.2.1 "h/a.png", h.2.2 [("m1", postA)]⟩

/-! ### Lemmas about the sequential execution of the download tasks -/

theorem runTask_fx_grows (total : Nat) (acc : SeqAcc) (tr : TaskSpec × Except String Unit) :
    acc.fx <+: (runTask total acc tr).fx := by
  obtain ⟨t, r⟩ := tr
  cases r with
  | ok u => exact List.prefix_append _ _
  | error e => exact List.prefix_append _ _

theorem foldl_runTask_fx_grows (total : Nat) :
    ∀ (pairs : List (TaskSpec × Except String Unit)) (acc : SeqAcc),
    acc.fx <+: (pairs.foldl (runTask total) acc).fx := by
  intro pairs
  induction pairs with
  | nil => intro acc; exact List.prefix_refl _
  | cons tr rest ih =>
    intro acc
    rw [List.foldl_cons]
    exact (runTask_fx_grows total acc tr).trans (ih (runTask total acc tr))

theorem runTask_processed (total : Nat) (acc : SeqAcc) (tr : TaskSpec × Except String Unit) :
    (runTask total acc tr).processed = acc.processed + 1 := by
  obtain ⟨t, r⟩ := tr
  cases r <;> rfl

theorem execSeq_line_mem (total : Nat) :
    ∀ (tasks : List TaskSpec) (oc : List (Except String Unit)) (acc : SeqAcc)
      (j : Nat) (t : TaskSpec) (r : Except String Unit),
    tasks[j]? = some t → oc[j]? = some r →
    Effect.printLine (taskLine t r (acc.processed + j + 1) total)
      ∈ (execSeq total tasks oc acc).fx := by
  intro tasks
  induction tasks with
  | nil => intro oc acc j t r ht _; simp at ht
  | cons t0 rest ih =>
    intro oc acc j t r ht hr
    cases oc with
    | nil => simp at hr
    | cons r0 ocrest =>
      unfold execSeq
      rw [List.zip_cons_cons, List.foldl_cons]
      cases j with
      | zero =>
        obtain rfl : t0 = t := by
          rw [List.getElem?_cons_zero] at ht
          exact Option.some.inj ht
        obtain rfl : r0 = r := by
          rw [List.getElem?_cons_zero] at hr
          exact Option.some.inj hr
        have hmem : Effect.printLine (taskLine t0 r0 (acc.processed + 1) total)
            ∈ (runTask total acc (t0, r0)).fx := by
          cases r0 with
          | ok u => simp [runTask, taskLine]
          | error e => simp [runTask, taskLine]
        have hpre := foldl_runTask_fx_grows total (rest.zip ocrest) (runTask total acc (t0, r0))
        rw [show acc.processed + 0 + 1 = acc.processed + 1 from by omega]
        exact hpre.subset hmem
      | succ j =>
        have hj := ih ocrest (runTask total acc (t0, r0)) j t r
          (by simpa using ht) (by simpa using hr)
        rw [runTask_processed] at hj
        rw [show acc.processed + (j + 1) + 1 = acc.processed + 1 + j + 1 from by omega]
        exact hj

/-- C8: a transport error during a single item's fetch (or a filesystem
error on its write) is local — `_main` still returns `Ok(())` (the task
body swallows the failure, so the join loop sees no error and the exit
code is unchanged), the failed item is reported by a line carrying its
filename and the underlying cause, and every sibling task is still
reported by the line its own result alone determines. -/
theorem fetch_error_is_local (responses : Nat → Except String GelbooruData)
    (fuel : Nat) (dir : String) (fs : List String) (total : Nat)
    (oc : List (Except String Unit)) (emitMeta : Bool) (acc : PagAcc)
    (i : Nat) (t : TaskSpec) (e : String)
    (hpag : paginate responses dir fs total fuel 0 initPagAcc = some (.finished acc))
    (ht : acc.tasks[i]? = some t) (he : oc[i]? = some (.error e)) :
    runResOf (runMain responses fuel dir fs total oc emitMeta) = some (.ok ()) ∧
    Effect.printLine ⟨t.name, .failed e, acc.processed + i + 1, total⟩
      ∈ runFx (runMain responses fuel dir fs total oc emitMeta) ∧
    (∀ j t' r, acc.tasks[j]? = some t' → oc[j]? = some r →
      Effect.printLine (taskLine t' r (acc.processed + j + 1) total)
        ∈ runFx (runMain responses fuel dir fs total oc emitMeta)) := by
  have hline : ∀ j t' r, acc.tasks[j]? = some t' → oc[j]? = some r →
      Effect.printLine (taskLine t' r (acc.processed + j + 1) total)
        ∈ runFx (runMain responses fuel dir fs total oc emitMeta) := by
    intro j t' r ht' hr'
    have hmem := execSeq_line_mem total acc.tasks oc ⟨acc.fx, fs, acc.processed, 0⟩ j t' r ht' hr'
    simp only [runMain, hpag, runFx]
    rw [List.append_assoc]
    exact List.mem_append_left _ hmem
  refine ⟨?_, ?_, hline⟩
  · simp only [runMain, hpag, runResOf]
  · exact hline i t (.error e) ht he

/-- Witness for C8 on `respW` with the single task failing with cause
`net`: the run still returns `Ok` and prints the failure line. -/
theorem fetch_error_is_local_witness :
    runResOf (runMain respW 4 "o" [] 1 [.error "net"] false) = some (.ok ()) ∧
    Effect.printLine ⟨"a.png", .failed "net", 1, 1⟩
      ∈ runFx (runMain respW 4 "o" [] 1 [.error "net"] false) := by
  have h := fetch_error_is_local respW 4 "o" [] 1 [.error "net"] false accW 0 taskA "net"
    (by decide) (by decide) rfl
  exact ⟨h.1, h.2.1⟩

/-! ### Lemmas about skip/download partitioning and re-runs -/

theorem processPost_cases (dir : String) (fs : List String) (total : Nat)
    (acc : PagAcc) (post : GelbooruPost) :
    (pathJoin dir (actual_filename post.file_url) ∈ fs ∧
      processPost dir fs total acc post
        = { acc with
            fx := acc.fx ++ [.printLine ⟨actual_filename post.file_url, .alreadyExists,
              acc.processed, total⟩],
            skips := acc.skips ++ [specOf dir post],
            processed := acc.processed + 1 }) ∨
    (pathJoin dir (actual_filename post.file_url) ∉ fs ∧
      processPost dir fs total acc post
        = { acc with tasks := acc.tasks ++ [specOf dir post] }) := by
  by_cases hmem : pathJoin dir (actual_filename post.file_url) ∈ fs
  · left
    exact ⟨hmem, by simp [processPost, specOf, hmem]⟩
  · right
    exact ⟨hmem, by simp [processPost, specOf, hmem]⟩

theorem foldl_processPost_paths (dir : String) (fs : List String) (total : Nat) :
    ∀ (posts : List GelbooruPost) (acc : PagAcc),
    (∀ t ∈ acc.skips, t.path ∈ fs) → (∀ t ∈ acc.tasks, t.path ∉ fs) →
    (∀ t ∈ (posts.foldl (processPost dir fs total) acc).skips, t.path ∈ fs) ∧
    (∀ t ∈ (posts.foldl (processPost dir fs total) acc).tasks, t.path ∉ fs) := by
  intro posts
  induction posts with
  | nil => intro acc h1 h2; exact ⟨h1, h2⟩
  | cons p ps ih =>
    intro acc h1 h2
    rw [List.foldl_cons]
    rcases processPost_cases dir fs total acc p with ⟨hmem, heq⟩ | ⟨hmem, heq⟩
    · rw [heq]
      apply ih
      · intro t ht
        rcases List.mem_append.mp ht with h | h
        · exact h1 t h
        · have : t = specOf dir p := by simpa using h
          rw [this]
          exact hmem
      · exact h2
    · rw [heq]
      apply ih
      · exact h1
      · intro t ht
        rcases List.mem_append.mp ht with h | h
        · exact h2 t h
        · have : t = specOf dir p := by simpa using h
          rw [this]
          exact hmem

theorem foldl_processPost_mono (dir : String) (fs : List String) (total : Nat) :
    ∀ (posts : List GelbooruPost) (acc : PagAcc),
    acc.skips <+: (posts.foldl (processPost dir fs total) acc).skips ∧
    acc.tasks <+: (posts.foldl (processPost dir fs total) acc).tasks := by
  intro posts
  induction posts with
  | nil => intro acc; exact ⟨List.prefix_refl _, List.prefix_refl _⟩
  | cons p ps ih =>
    intro acc
    rw [List.foldl_cons]
    rcases processPost_cases dir fs total acc p with ⟨_, heq⟩ | ⟨_, heq⟩
    · rw [heq]
      rcases ih { acc with
          fx := acc.fx ++ [.printLine ⟨actual_filename p.file_url, .alreadyExists,
            acc.processed, total⟩],
          skips := acc.skips ++ [specOf dir p],
          processed := acc.processed + 1 } with ⟨hs, ht⟩
      exact ⟨(List.prefix_append _ _).trans hs, ht⟩
    · rw [heq]
      rcases ih { acc with tasks := acc.tasks ++ [specOf dir p] } with ⟨hs, ht⟩
      exact ⟨hs, (List.prefix_append _ _).trans ht⟩

theorem foldl_processPost_spec_mem (dir : String) (fs : List String) (total : Nat) :
    ∀ (posts : List GelbooruPost) (acc : PagAcc) (p : GelbooruPost), p ∈ posts →
    specOf dir p ∈ (posts.foldl (processPost dir fs total) acc).skips ∨
    specOf dir p ∈ (posts.foldl (processPost dir fs total) acc).tasks := by
  intro posts
  induction posts with
  | nil => intro acc p hp; cases hp
  | cons q ps ih =>
    intro acc p hp
    rw [List.foldl_cons]
    rcases List.mem_cons.mp hp with rfl | hmem
    · rcases processPost_cases dir fs total acc p with ⟨_, heq⟩ | ⟨_, heq⟩
      · left
        rw [heq]
        have hpre := (foldl_processPost_mono dir fs total ps
          { acc with
            fx := acc.fx ++ [.printLine ⟨actual_filename p.file_url, .alreadyExists,
              acc.processed, total⟩],
            skips := acc.skips ++ [specOf dir p],
            processed := acc.processed + 1 }).1
        apply hpre.subset
        exact List.mem_append_right _ (by simp)
      · right
        rw [heq]
        have hpre := (foldl_processPost_mono dir fs total ps
          { acc with tasks := acc.tasks ++ [specOf dir p] }).2
        apply hpre.subset
        exact List.mem_append_right _ (by simp)
    · exact ih (processPost dir fs total acc q) p hmem

theorem paginate_paths (responses : Nat → Except String GelbooruData)
    (dir : String) (fs : List String) (total : Nat) :
    ∀ (fuel page : Nat) (acc A : PagAcc),
    paginate responses dir fs total fuel page acc = some (.finished A) →
    (∀ t ∈ acc.skips, t.path ∈ fs) → (∀ t ∈ acc.tasks, t.path ∉ fs) →
    (∀ t ∈ A.skips, t.path ∈ fs) ∧ (∀ t ∈ A.tasks, t.path ∉ fs) := by
  intro fuel
  induction fuel with
  | zero => intro page acc A h; cases h
  | succ fuel ih =>
    intro page acc A h h1 h2
    rw [paginate] at h
    rcases hresp : responses page with err | data
    · rw [hresp] at h
      simp at h
    · rw [hresp] at h
      obtain ⟨attrs, dposts⟩ := data
      cases dposts with
      | none =>
        simp only [] at h
        injection h with h'
        injection h' with h''
        subst h''
        exact ⟨h1, h2⟩
      | some ps =>
        simp only [] at h
        refine ih (page + 1) _ A h ?_ ?_
        · exact (foldl_processPost_paths dir fs total ps
            { acc with
              fx := acc.fx ++ [.search 100 page],
              store := insert_posts acc.store ps } h1 h2).1
        · exact (foldl_processPost_paths dir fs total ps
            { acc with
              fx := acc.fx ++ [.search 100 page],
              store := insert_posts acc.store ps } h1 h2).2

theorem paginate_mono (responses : Nat → Except String GelbooruData)
    (dir : String) (fs : List String) (total : Nat) :
    ∀ (fuel page : Nat) (acc A : PagAcc),
    paginate responses dir fs total fuel page acc = some (.finished A) →
    acc.skips <+: A.skips ∧ acc.tasks <+: A.tasks := by
  intro fuel
  induction fuel with
  | zero => intro page acc A h; cases h
  | succ fuel ih =>
    intro page acc A h
    rw [paginate] at h
    rcases hresp : responses page with err | data
    · rw [hresp] at h
      simp at h
    · rw [hresp] at h
      obtain ⟨attrs, dposts⟩ := data
      cases dposts with
      | none =>
        simp only [] at h
        injection h with h'
        injection h' with h''
        subst h''
        exact ⟨List.prefix_refl _, List.prefix_refl _⟩
      | some ps =>
        simp only [] at h
        have hrec := ih (page + 1) _ A h
        have hfold := foldl_processPost_mono dir fs total ps
          { acc with
            fx := acc.fx ++ [.search 100 page],
            store := insert_posts acc.store ps }
        exact ⟨hfold.1.trans hrec.1, hfold.2.trans hrec.2⟩

theorem foldl_processPost_rerun (dir : String) (fs fs2 : List String) (total : Nat) :
    ∀ (posts : List GelbooruPost) (a1 a2 : PagAcc),
    (∀ p ∈ posts, pathJoin dir (actual_filename p.file_url) ∈ fs2) →
    a2.tasks = [] →
    a2.skips.length = a1.skips.length + a1.tasks.length →
    (posts.foldl (processPost dir fs2 total) a2).tasks = [] ∧
    (posts.foldl (processPost dir fs2 total) a2).skips.length
      = (posts.foldl (processPost dir fs total) a1).skips.length
        + (posts.foldl (processPost dir fs total) a1).tasks.length := by
  intro posts
  induction posts with
  | nil => intro a1 a2 _ h2t h2l; exact ⟨h2t, h2l⟩
  | cons p ps ih =>
    intro a1 a2 hmem h2t h2l
    rw [List.foldl_cons, List.foldl_cons]
    have hp2 : pathJoin dir (actual_filename p.file_url) ∈ fs2 :=
      hmem p (List.mem_cons_self p ps)
    have hstep2 : processPost dir fs2 total a2 p
        = { a2 with
            fx := a2.fx ++ [.printLine ⟨actual_filename p.file_url, .alreadyExists,
              a2.processed, total⟩],
            skips := a2.skips ++ [specOf dir p],
            processed := a2.processed + 1 } := by
      rcases processPost_cases dir fs2 total a2 p with ⟨_, heq⟩ | ⟨hmem', _⟩
      · exact heq
      · exact absurd hp2 hmem'
    apply ih
    · intro q hq
      exact hmem q (List.mem_cons_of_mem p hq)
    · rw [hstep2]
      exact h2t
    · rw [hstep2]
      rcases processPost_cases dir fs total a1 p with ⟨_, heq⟩ | ⟨_, heq⟩
      · rw [heq]
        simp only [List.length_append, List.length_cons, List.length_nil]
        omega
      · rw [heq]
        simp only [List.length_append, List.length_cons, List.length_nil]
        omega

theorem paginate_rerun (responses : Nat → Except String GelbooruData)
    (dir : String) (fs fs2 : List String) (total : Nat) (A : PagAcc)
    (hsk : ∀ t ∈ A.skips, t.path ∈ fs2) (htk : ∀ t ∈ A.tasks, t.path ∈ fs2) :
    ∀ (fuel page : Nat) (a1 a2 : PagAcc),
    paginate responses dir fs total fuel page a1 = some (.finished A) →
    a2.tasks = [] →
    a2.skips.length = a1.skips.length + a1.tasks.length →
    ∃ B, paginate responses dir fs2 total fuel page a2 = some (.finished B) ∧
      B.tasks = [] ∧ B.skips.length = A.skips.length + A.tasks.length := by
  intro fuel
  induction fuel with
  | zero => intro page a1 a2 h; cases h
  | succ fuel ih =>
    intro page a1 a2 h h2t h2l
    rw [paginate] at h
    rcases hresp : responses page with err | data
    · rw [hresp] at h
      simp at h
    · rw [hresp] at h
      obtain ⟨attrs, dposts⟩ := data
      cases dposts with
      | none =>
        simp only [] at h
        injection h with h'
        injection h' with h''
        subst h''
        refine ⟨{ a2 with fx := a2.fx ++ [.search 100 page] }, ?_, h2t, h2l⟩
        simp only [paginate, hresp]
      | some ps =>
        simp only [] at h
        have hmem : ∀ p ∈ ps, pathJoin dir (actual_filename p.file_url) ∈ fs2 := by
          intro p hp
          have hspec := foldl_processPost_spec_mem dir fs total ps
            { a1 with
              fx := a1.fx ++ [.search 100 page],
              store := insert_posts a1.store ps } p hp
          have hpre := paginate_mono responses dir fs total fuel (page + 1) _ A h
          rcases hspec with hs | hs
          · exact hsk _ (hpre.1.subset hs)
          · exact htk _ (hpre.2.subset hs)
        have hfold := foldl_processPost_rerun dir fs fs2 total ps
          { a1 with
            fx := a1.fx ++ [.search 100 page],
            store := insert_posts a1.store ps }
          { a2 with
            fx := a2.fx ++ [.search 100 page],
            store := insert_posts a2.store ps }
          hmem h2t h2l
        rcases ih (page + 1)
            (processPage dir fs total { a1 with fx := a1.fx ++ [.search 100 page] } ps)
            (processPage dir fs2 total { a2 with fx := a2.fx ++ [.search 100 page] } ps)
            h hfold.1 hfold.2 with ⟨B, hpagB, hBt, hBl⟩
        refine ⟨B, ?_, hBt, hBl⟩
        simp only [paginate, hresp]
        exact hpagB

theorem runTask_files (total : Nat) (acc : SeqAcc) (tr : TaskSpec × Except String Unit) :
    (runTask total acc tr).files = acc.files ++ (if resOk tr.2 then [tr.1.path] else []) := by
  obtain ⟨t, r⟩ := tr
  cases r with
  | ok u => simp [runTask, resOk]
  | error e => simp [runTask, resOk]

theorem foldl_runTask_files_all_ok (total : Nat) :
    ∀ (pairs : List (TaskSpec × Except String Unit)) (acc : SeqAcc),
    (∀ pr ∈ pairs, resOk pr.2 = true) →
    (pairs.foldl (runTask total) acc).files = acc.files ++ pairs.map (fun pr => pr.1.path) := by
  intro pairs
  induction pairs with
  | nil => intro acc _; simp
  | cons tr rest ih =>
    intro acc hok
    rw [List.foldl_cons, ih _ (fun pr hpr => hok pr (List.mem_cons_of_mem tr hpr))]
    rw [runTask_files, hok tr (List.mem_cons_self tr rest)]
    simp [List.append_assoc]

theorem execSeq_files_all_ok (total : Nat) (tasks : List TaskSpec)
    (oc : List (Except String Unit)) (acc : SeqAcc)
    (hlen : oc.length = tasks.length) (hok : ∀ r ∈ oc, resOk r = true) :
    (execSeq total tasks oc acc).files = acc.files ++ tasks.map (fun t => t.path) := by
  unfold execSeq
  rw [foldl_runTask_files_all_ok total (tasks.zip oc) acc
    (fun pr hpr => hok pr.2 (List.of_mem_zip hpr).2)]
  congr 1
  have h1 : (tasks.zip oc).map (fun pr => pr.1.path)
      = ((tasks.zip oc).map Prod.fst).map (fun t => t.path) := by
    rw [List.map_map]
    rfl
  rw [h1, List.map_fst_zip]
  omega

/-- C6 (amended): an item is skipped iff a filesystem entry already
exists at the join of the output directory and the final path segment of
its file URL — every skip's path existed, every dispatched download's
path did not.  Consequently, a second run over the same query and the
unchanged output directory performs zero new downloads (no fetch effect,
no task created) and reports every item as already existing, PROVIDED
every download of the first run succeeded; a failed first-run item is
re-attempted (see the counterexample). -/
theorem dedup_skip_iff_exists (responses : Nat → Except String GelbooruData)
    (dir : String) (fs : List String) (total fuel : Nat) (acc : PagAcc)
    (oc1 oc2 : List (Except String Unit)) (emit1 emit2 : Bool)
    (hpag : paginate responses dir fs total fuel 0 initPagAcc = some (.finished acc)) :
    ((∀ t ∈ acc.skips, t.path ∈ fs) ∧ (∀ t ∈ acc.tasks, t.path ∉ fs)) ∧
    (oc1.length = acc.tasks.length → (∀ r ∈ oc1, resOk r = true) →
      pagTasksOf (paginate responses dir
        (runFilesOf (runMain responses fuel dir fs total oc1 emit1))
        total fuel 0 initPagAcc) = [] ∧
      (pagSkipsOf (paginate responses dir
        (runFilesOf (runMain responses fuel dir fs total oc1 emit1))
        total fuel 0 initPagAcc)).length = acc.skips.length + acc.tasks.length ∧
      (∀ u, Effect.fetch u ∉ runFx (runMain responses fuel dir
        (runFilesOf (runMain responses fuel dir fs total oc1 emit1))
        total oc2 emit2))) := by
  have hpaths := paginate_paths responses dir fs total fuel 0 initPagAcc acc hpag
    (by intro t ht; simp [initPagAcc] at ht) (by intro t ht; simp [initPagAcc] at ht)
  refine ⟨hpaths, ?_⟩
  intro hlen hok
  have hfiles : runFilesOf (runMain responses fuel dir fs total oc1 emit1)
      = fs ++ acc.tasks.map (fun t => t.path) := by
    simp only [runMain, hpag, runFilesOf]
    exact execSeq_files_all_ok total acc.tasks oc1 ⟨acc.fx, fs, acc.processed, 0⟩ hlen hok
  rw [hfiles]
  have hsk : ∀ t ∈ acc.skips, t.path ∈ fs ++ acc.tasks.map (fun t => t.path) := by
    intro t ht
    exact List.mem_append_left _ (hpaths.1 t ht)
  have htk : ∀ t ∈ acc.tasks, t.path ∈ fs ++ acc.tasks.map (fun t => t.path) := by
    intro t ht
    exact List.mem_append_right _ (List.mem_map.mpr ⟨t, ht, rfl⟩)
  rcases paginate_rerun responses dir fs (fs ++ acc.tasks.map (fun t => t.path)) total acc
    hsk htk fuel 0 initPagAcc initPagAcc hpag rfl rfl with ⟨B, hpagB, hBt, hBl⟩
  have hBfx : ∀ e ∈ B.fx, pagShape e = true := by
    intro e he
    rcases paginate_fx_mem responses dir (fs ++ acc.tasks.map (fun t => t.path)) total
        fuel 0 initPagAcc (.finished B) hpagB e he with h | h
    · simp [initPagAcc] at h
    · exact h
  refine ⟨?_, ?_, ?_⟩
  · rw [hpagB]
    exact hBt
  · rw [hpagB]
    exact hBl
  · intro u hu
    simp only [runMain, hpagB] at hu
    rw [hBt] at hu
    have hu' : Effect.fetch u ∈ B.fx ++ [Effect.printSummary 0 (B.processed - 0)]
        ++ (if emit2 then [Effect.emitJson B.store] else []) := hu
    rcases List.mem_append.mp hu' with h | h
    · rcases List.mem_append.mp h with h2 | h2
      · have := hBfx _ h2
        simp [pagShape] at this
      · simp at h2
    · by_cases he : emit2
      · simp [he] at h
      · simp [he] at h

/-- Witness for the amended C6 on `respW`: the dispatched task's path is
absent, and after an all-successful first run the second run creates no
task, reports one skip, and issues no fetch. -/
theorem dedup_skip_iff_exists_witness :
    ((∀ t ∈ accW.skips, t.path ∈ ([] : List String)) ∧
      (∀ t ∈ accW.tasks, t.path ∉ ([] : List String))) ∧
    pagTasksOf (paginate respW "o"
      (runFilesOf (runMain respW 4 "o" [] 1 [.ok ()] false)) 1 4 0 initPagAcc) = [] ∧
    (pagSkipsOf (paginate respW "o"
      (runFilesOf (runMain respW 4 "o" [] 1 [.ok ()] false)) 1 4 0 initPagAcc)).length
      = accW.skips.length + accW.tasks.length ∧
    Effect.fetch "h/a.png" ∉ runFx (runMain respW 4 "o"
      (runFilesOf (runMain respW 4 "o" [] 1 [.ok ()] false)) 1 [.ok ()] false) := by
  have h := dedup_skip_iff_exists respW "o" [] 1 4 accW [.ok ()] [.ok ()] false false
    (by decide)
  have h2 := h.2 (by decide) (by decide)
  exact ⟨h.1, h2.1, h2.2.1, h2.2.2 "h/a.png"⟩

/-- Counterexample for C6 as stated: with one item and an empty output
directory, the first run completes but its only download fails, leaving
the directory unchanged (no file written); the second run over the same
query and unchanged directory then performs a new download — it fetches
and writes the file — contradicting that every second run performs zero
new downloads and reports every item as already existing. -/
theorem rerun_after_failure_downloads_again :
    runResOf (runMain respW 4 "o" [] 1 [.error "net"] false) = some (.ok ()) ∧
    runFilesOf (runMain respW 4 "o" [] 1 [.error "net"] false) = [] ∧
    Effect.fetch "h/a.png" ∈ runFx (runMain respW 4 "o"
      (runFilesOf (runMain respW 4 "o" [] 1 [.error "net"] false)) 1 [.ok ()] false) ∧
    Effect.writeFile "o/a.png" ∈ runFx (runMain respW 4 "o"
      (runFilesOf (runMain respW 4 "o" [] 1 [.error "net"] false)) 1 [.ok ()] false) :=
  ⟨rfl, by decide, by decide, by decide⟩

/-! ### Lemmas about the interleaved download phase -/

theorem countP_set_eq {α : Type} (p : α → Bool) :
    ∀ (l : List α) (i : Nat) (a b : α), l[i]? = some a →
    (l.set i b).countP p + (if p a then 1 else 0)
      = l.countP p + (if p b then 1 else 0) := by
  intro l
  induction l with
  | nil => intro i a b h; cases h
  | cons x xs ih =>
    intro i a b h
    cases i with
    | zero =>
      rw [List.getElem?_cons_zero] at h
      obtain rfl : x = a := Option.some.inj h
      rw [List.set_cons_zero, List.countP_cons, List.countP_cons]
      omega
    | succ i =>
      rw [List.getElem?_cons_succ] at h
      rw [List.set_cons_succ, List.countP_cons, List.countP_cons]
      have := ih i a b h
      omega

theorem lt_length_of_getElem? {α : Type} {l : List α} {i : Nat} {a : α}
    (h : l[i]? = some a) : i < l.length := by
  by_contra hc
  push_neg at hc
  rw [List.getElem?_eq_none hc] at h
  cases h

theorem execInv_init (oc : List (Except String Unit)) (numTasks initP : Nat) :
    ExecInv oc initP (initExec numTasks initP) := by
  refine ⟨?_, ?_, ?_, ?_⟩
  · simp [initExec, List.countP_replicate, phaseActive]
  · simp [initExec, List.countP_replicate, phaseRecorded]
  · simp [initExec, List.countP_replicate, phaseDoneOk]
  · intro i r h
    rcases h with h | h <;>
    · rw [show (initExec numTasks initP).phases = List.replicate numTasks .pending from rfl,
        List.getElem?_replicate] at h
      by_cases hi : i < numTasks
      · rw [if_pos hi] at h
        cases h
      · rw [if_neg hi] at h
        cases h

theorem execInv_step (ts : List TaskSpec) (oc : List (Except String Unit)) (total : Nat)
    (initP : Nat) (s : ExecState) (fx : List Effect) (s' : ExecState)
    (hstep : ExecStep ts oc total s fx s') (hinv : ExecInv oc initP s) :
    ExecInv oc initP s' := by
  obtain ⟨h1, h2, h3, h4⟩ := hinv
  cases hstep with
  | acquire i t ht hph hp =>
    have hact := countP_set_eq phaseActive s.phases i .pending .inflight hph
    have hrec := countP_set_eq phaseRecorded s.phases i .pending .inflight hph
    have hdon := countP_set_eq phaseDoneOk s.phases i .pending .inflight hph
    simp [phaseActive, phaseRecorded, phaseDoneOk] at hact hrec hdon
    refine ⟨?_, ?_, ?_, ?_⟩
    · show s.permits - 1 + (s.phases.set i TaskPhase.inflight).countP phaseActive
        = semaphoreCapacity
      omega
    · show s.processed = initP + (s.phases.set i TaskPhase.inflight).countP phaseRecorded
      omega
    · show s.written = (s.phases.set i TaskPhase.inflight).countP phaseDoneOk
      omega
    · intro j r hj
      have hj' : (s.phases.set i TaskPhase.inflight)[j]? = some (TaskPhase.midway r) ∨
          (s.phases.set i TaskPhase.inflight)[j]? = some (TaskPhase.terminal r) := hj
      by_cases hij : i = j
      · subst hij
        rw [List.getElem?_set_self (lt_length_of_getElem? hph)] at hj'
        rcases hj' with hj' | hj' <;> cases hj'
      · rw [List.getElem?_set_ne hij] at hj'
        exact h4 j r hj'
  | record i t res ht hres hph =>
    have hact := countP_set_eq phaseActive s.phases i .inflight (.midway res) hph
    have hrec := countP_set_eq phaseRecorded s.phases i .inflight (.midway res) hph
    have hdon := countP_set_eq phaseDoneOk s.phases i .inflight (.midway res) hph
    simp [phaseActive, phaseRecorded, phaseDoneOk] at hact hrec hdon
    refine ⟨?_, ?_, ?_, ?_⟩
    · show s.permits + (s.phases.set i (TaskPhase.midway res)).countP phaseActive
        = semaphoreCapacity
      omega
    · show s.processed + 1
        = initP + (s.phases.set i (TaskPhase.midway res)).countP phaseRecorded
      omega
    · show s.written = (s.phases.set i (TaskPhase.midway res)).countP phaseDoneOk
      omega
    · intro j r hj
      have hj' : (s.phases.set i (TaskPhase.midway res))[j]? = some (TaskPhase.midway r) ∨
          (s.phases.set i (TaskPhase.midway res))[j]? = some (TaskPhase.terminal r) := hj
      by_cases hij : i = j
      · subst hij
        rw [List.getElem?_set_self (lt_length_of_getElem? hph)] at hj'
        rcases hj' with hj' | hj'
        · obtain rfl : res = r := by injection Option.some.inj hj'
          exact hres
        · cases hj'
      · rw [List.getElem?_set_ne hij] at hj'
        exact h4 j r hj'
  | finish i res hph =>
    have hact := countP_set_eq phaseActive s.phases i (.midway res) (.terminal res) hph
    have hrec := countP_set_eq phaseRecorded s.phases i (.midway res) (.terminal res) hph
    have hdon := countP_set_eq phaseDoneOk s.phases i (.midway res) (.terminal res) hph
    have hdonval : phaseDoneOk (.terminal res) = resOk res := by cases res <;> rfl
    rw [hdonval] at hdon
    simp [phaseActive, phaseRecorded, phaseDoneOk] at hact hrec hdon
    refine ⟨?_, ?_, ?_, ?_⟩
    · show s.permits + 1 + (s.phases.set i (TaskPhase.terminal res)).countP phaseActive
        = semaphoreCapacity
      omega
    · show s.processed = initP + (s.phases.set i (TaskPhase.terminal res)).countP phaseRecorded
      omega
    · show s.written + (if resOk res then 1 else 0)
        = (s.phases.set i (TaskPhase.terminal res)).countP phaseDoneOk
      by_cases hro : resOk res
      · rw [if_pos hro]
        rw [hro] at hdon
        simp at hdon
        omega
      · rw [if_neg hro]
        rw [Bool.not_eq_true] at hro
        rw [hro] at hdon
        simp at hdon
        omega
    · intro j r hj
      have hj' : (s.phases.set i (TaskPhase.terminal res))[j]? = some (TaskPhase.midway r) ∨
          (s.phases.set i (TaskPhase.terminal res))[j]? = some (TaskPhase.terminal r) := hj
      by_cases hij : i = j
      · subst hij
        rw [List.getElem?_set_self (lt_length_of_getElem? hph)] at hj'
        rcases hj' with hj' | hj'
        · cases hj'
        · obtain rfl : res = r := by injection Option.some.inj hj'
          exact h4 i res (Or.inl hph)
      · rw [List.getElem?_set_ne hij] at hj'
        exact h4 j r hj'

theorem execInv_steps (ts : List TaskSpec) (oc : List (Except String Unit)) (total : Nat)
    (initP : Nat) :
    ∀ (s : ExecState) (fx : List Effect) (s' : ExecState),
    ExecSteps ts oc total s fx s' → ExecInv oc initP s → ExecInv oc initP s' := by
  intro s fx s' h
  induction h with
  | refl s => exact id
  | step h1 h2 ih => exact fun hinv => ih (execInv_step ts oc total initP _ _ _ h1 hinv)

theorem execSteps_phases_length (ts : List TaskSpec) (oc : List (Except String Unit))
    (total : Nat) :
    ∀ (s : ExecState) (fx : List Effect) (s' : ExecState),
    ExecSteps ts oc total s fx s' → s'.phases.length = s.phases.length := by
  intro s fx s' h
  induction h with
  | refl s => rfl
  | step h1 h2 ih =>
    rw [ih]
    cases h1 with
    | acquire i t ht hph hp => exact List.length_set _ _ _
    | record i t res ht hres hph => exact List.length_set _ _ _
    | finish i res hph => exact List.length_set _ _ _

theorem countP_terminal_counts :
    ∀ (phases : List TaskPhase) (oc : List (Except String Unit)),
    phases.length = oc.length →
    (∀ (i : Nat) (r : Except String Unit),
      phases[i]? = some (.terminal r) → oc[i]? = some r) →
    (∀ ph ∈ phases, phaseDone ph = true) →
    phases.countP phaseDoneOk = oc.countP resOk ∧
    phases.countP phaseRecorded = oc.length := by
  intro phases
  induction phases with
  | nil =>
    intro oc hlen _ _
    have : oc = [] := List.eq_nil_of_length_eq_zero hlen.symm
    subst this
    exact ⟨rfl, rfl⟩
  | cons ph phs ih =>
    intro oc hlen halign hterm
    cases oc with
    | nil => simp at hlen
    | cons r0 ocs =>
      have hph : phaseDone ph = true := hterm ph (List.mem_cons_self ph phs)
      obtain ⟨r, rfl⟩ : ∃ r, ph = .terminal r := by
        cases ph with
        | terminal r => exact ⟨r, rfl⟩
        | pending => simp [phaseDone] at hph
        | inflight => simp [phaseDone] at hph
        | midway r => simp [phaseDone] at hph
      obtain rfl : r0 = r := by
        have := halign 0 r (by rw [List.getElem?_cons_zero])
        rw [List.getElem?_cons_zero] at this
        exact Option.some.inj this
      have ihh := ih ocs (by simpa using hlen)
        (fun i r' hi => by
          have := halign (i + 1) r' (by simpa using hi)
          simpa using this)
        (fun p hp => hterm p (List.mem_cons_of_mem _ hp))
      constructor
      · rw [List.countP_cons, List.countP_cons, ihh.1]
        have hval : phaseDoneOk (.terminal r0) = resOk r0 := by cases r0 <;> rfl
        rw [hval]
      · rw [List.countP_cons, ihh.2]
        simp [phaseRecorded]

theorem countP_resOk_split :
    ∀ oc : List (Except String Unit),
    oc.countP resOk + oc.countP (fun r => !resOk r) = oc.length := by
  intro oc
  induction oc with
  | nil => rfl
  | cons r ocs ih =>
    rw [List.countP_cons, List.countP_cons, List.length_cons]
    cases hro : resOk r <;> simp [hro] <;> omega

theorem stepAcqW : ExecStep tasksW ocW 1 sW0 [.fetch "h/a.png"] sW1 :=
  ExecStep.acquire sW0 0 taskA rfl rfl (by decide)

theorem stepRecW : ExecStep tasksW ocW 1 sW1
    [.writeFile "o/a.png", .printLine ⟨"a.png", .downloaded, 1, 1⟩] sW2 :=
  ExecStep.record sW1 0 taskA (.ok ()) rfl rfl rfl

theorem stepFinW : ExecStep tasksW ocW 1 sW2 [] sW3 :=
  ExecStep.finish sW2 0 (.ok ()) rfl

theorem stepsW : ExecSteps tasksW ocW 1 sW0 fx2W sW3 :=
  show ExecSteps tasksW ocW 1 sW0
      ([Effect.fetch "h/a.png"]
        ++ ([.writeFile "o/a.png", .printLine ⟨"a.png", .downloaded, 1, 1⟩] ++ ([] ++ []))) sW3
    from ExecSteps.step stepAcqW (ExecSteps.step stepRecW
      (ExecSteps.step stepFinW (ExecSteps.refl sW3)))

/-- C3: at no point of any interleaved execution of the download phase
are more than K = 24 downloads in flight simultaneously — the number of
tasks holding a unit of the admission gate (acquired before the fetch,
released at the terminal outcome) never exceeds `semaphoreCapacity`,
the capacity 24 of the semaphore built in `GelbooruClient::new`. -/
theorem concurrency_bound (ts : List TaskSpec) (oc : List (Except String Unit))
    (total numTasks initP : Nat) (fx : List Effect) (s : ExecState)
    (h : ExecSteps ts oc total (initExec numTasks initP) fx s) :
    s.phases.countP phaseActive ≤ semaphoreCapacity ∧ semaphoreCapacity = 24 := by
  have hinv := execInv_steps ts oc total initP _ fx s h (execInv_init oc numTasks initP)
  obtain ⟨h1, _, _, _⟩ := hinv
  exact ⟨by omega, rfl⟩

/-- Witness for C3 at the end state of the one-task execution. -/
theorem concurrency_bound_witness :
    sW3.phases.countP phaseActive ≤ semaphoreCapacity ∧ semaphoreCapacity = 24 :=
  concurrency_bound tasksW ocW 1 1 0 fx2W sW3 stepsW

/-- C10: at every reachable point of the download phase the succeeded
counter is at most the processed counter — `written` is only bumped by
a task that already bumped `processed` — so the final summary's
subtraction `processed - written` never underflows. -/
theorem written_le_processed (ts : List TaskSpec) (oc : List (Except String Unit))
    (total numTasks initP : Nat) (fx : List Effect) (s : ExecState)
    (h : ExecSteps ts oc total (initExec numTasks initP) fx s) :
    s.written ≤ s.processed := by
  have hinv := execInv_steps ts oc total initP _ fx s h (execInv_init oc numTasks initP)
  obtain ⟨_, h2, h3, _⟩ := hinv
  have hmono : s.phases.countP phaseDoneOk ≤ s.phases.countP phaseRecorded := by
    apply List.countP_mono_left
    intro ph _ hph
    cases ph with
    | terminal r => rfl
    | pending => simp [phaseDoneOk] at hph
    | inflight => simp [phaseDoneOk] at hph
    | midway r => simp [phaseDoneOk] at hph
  omega

/-- Witness for C10 at the end state of the one-task execution. -/
theorem written_le_processed_witness : sW3.written ≤ sW3.processed :=
  written_le_processed tasksW ocW 1 1 0 fx2W sW3 stepsW

/-- C5: once every launched task has reached a terminal outcome, the
summary line reports Wrote = number of succeeded downloads and
Skipped = processed − written, which equals the already-present skips
(`initP`) plus the failed downloads — both are counted together. -/
theorem summary_counts (ts : List TaskSpec) (oc : List (Except String Unit))
    (total numTasks initP : Nat) (fx : List Effect) (s : ExecState)
    (h : ExecSteps ts oc total (initExec numTasks initP) fx s)
    (hterm : allTerminal s) (hlen : numTasks = oc.length) :
    s.written = oc.countP resOk ∧
    s.processed - s.written = initP + oc.countP (fun r => !resOk r) ∧
    Effect.printSummary s.written (s.processed - s.written)
      = .printSummary (oc.countP resOk) (initP + oc.countP (fun r => !resOk r)) := by
  have hinv := execInv_steps ts oc total initP _ fx s h (execInv_init oc numTasks initP)
  obtain ⟨_, h2, h3, h4⟩ := hinv
  have hplen : s.phases.length = oc.length := by
    have := execSteps_phases_length ts oc total _ fx s h
    rw [this]
    simp [initExec, hlen]
  have hcounts := countP_terminal_counts s.phases oc hplen
    (fun i r hi => h4 i r (Or.inr hi)) hterm
  have hsplit := countP_resOk_split oc
  refine ⟨by omega, by omega, ?_⟩
  have e1 : s.written = oc.countP resOk := by omega
  have e2 : s.processed - s.written = initP + oc.countP (fun r => !resOk r) := by omega
  rw [e2, e1]

/-- Witness for C5 at the end state of the one-task execution: one
success, zero skips, summary Wrote 1 Skipped 0. -/
theorem summary_counts_witness :
    allTerminal sW3 ∧ (1 : Nat) = ocW.length ∧
    sW3.written = ocW.countP resOk ∧
    sW3.processed - sW3.written = 0 + ocW.countP (fun r => !resOk r) := by
  have h := summary_counts tasksW ocW 1 1 0 fx2W sW3 stepsW (by decide) (by decide)
  exact ⟨by decide, by decide, h.1, h.2.1⟩

/-- C4 (amended): the `downloaded` and `error` branches print the
post-increment `processed` value — every line emitted by an execution
step shows exactly the counter value immediately after that item's own
increment — while the skip branch prints the pre-increment value: the
counter value before that item's increment (`fetch_add` returns the old
value on line 175, and no `+ 1` is added there). -/
theorem printed_counter_values :
    (∀ (dir : String) (fs : List String) (total : Nat) (acc : PagAcc) (post : GelbooruPost),
      pathJoin dir (actual_filename post.file_url) ∈ fs →
      (processPost dir fs total acc post).fx
        = acc.fx ++ [.printLine ⟨actual_filename post.file_url, .alreadyExists,
            acc.processed, total⟩] ∧
      (processPost dir fs total acc post).processed = acc.processed + 1) ∧
    (∀ (ts : List TaskSpec) (oc : List (Except String Unit)) (total : Nat)
      (s : ExecState) (fx : List Effect) (s' : ExecState) (l : OutLine),
      ExecStep ts oc total s fx s' → Effect.printLine l ∈ fx →
      l.shown = s'.processed ∧ s'.processed = s.processed + 1) := by
  constructor
  · intro dir fs total acc post hmem
    rcases processPost_cases dir fs total acc post with ⟨_, heq⟩ | ⟨hn, _⟩
    · rw [heq]
      exact ⟨rfl, rfl⟩
    · exact absurd hmem hn
  · intro ts oc total s fx s' l hstep hl
    cases hstep with
    | acquire i t ht hph hp =>
      simp at hl
    | record i t res ht hres hph =>
      have hl' : l = taskLine t res (s.processed + 1) total := by
        rcases List.mem_append.mp hl with h | h
        · by_cases hro : resOk res
          · rw [if_pos hro] at h
            simp at h
          · rw [if_neg hro] at h
            simp at h
        · simpa using h
      constructor
      · rw [hl']
        cases res <;> rfl
      · rfl
    | finish i res hph =>
      simp at hl

/-- Witness for the amended C4: the present item's skip line shows the
pre-increment value 0, and the concrete `record` step's line shows the
post-increment value 1. -/
theorem printed_counter_values_witness :
    pathJoin "o" (actual_filename "h/a.png") ∈ ["o/a.png"] ∧
    (processPost "o" ["o/a.png"] 1 initPagAcc postA).fx
      = [] ++ [.printLine ⟨actual_filename "h/a.png", .alreadyExists, 0, 1⟩] ∧
    (processPost "o" ["o/a.png"] 1 initPagAcc postA).processed = 0 + 1 ∧
    OutLine.shown ⟨"a.png", .downloaded, 1, 1⟩ = sW2.processed ∧
    sW2.processed = sW1.processed + 1 := by
  have h1 := printed_counter_values.1 "o" ["o/a.png"] 1 initPagAcc postA (by decide)
  have h2 := printed_counter_values.2 tasksW ocW 1 sW1
    [.writeFile "o/a.png", .printLine ⟨"a.png", .downloaded, 1, 1⟩] sW2
    ⟨"a.png", .downloaded, 1, 1⟩ stepRecW (by decide)
  exact ⟨by decide, h1.1, h1.2, h2.1, h2.2⟩

/-- Counterexample for C4 as stated: with one already-present item the
skip branch prints 0 — the value before that item's increment — while
the value immediately after its own increment is the final `processed`
value 1; the printed skip value is not the post-increment one. -/
theorem skip_line_prints_pre_increment :
    paginate respW "o" ["o/a.png"] 1 3 0 initPagAcc
      = some (.finished ⟨[.search 100 0,
          .printLine ⟨"a.png", .alreadyExists, 0, 1⟩, .search 100 1],
          [taskA], [], [("m1", postA)], 1⟩) ∧
    (0 : Nat) ≠ 1 :=
  ⟨by decide, by decide⟩

theorem execStep_fx_shape (ts : List TaskSpec) (oc : List (Except String Unit))
    (total : Nat) (s : ExecState) (fx : List Effect) (s' : ExecState)
    (h : ExecStep ts oc total s fx s') : ∀ e ∈ fx, execShape e = true := by
  cases h with
  | acquire i t ht hph hp =>
    intro e he
    have : e = .fetch t.post.file_url := by simpa using he
    rw [this]
    rfl
  | record i t res ht hres hph =>
    intro e he
    rcases List.mem_append.mp he with h | h
    · by_cases hro : resOk res
      · rw [if_pos hro] at h
        have : e = .writeFile t.path := by simpa using h
        rw [this]
        rfl
      · rw [if_neg hro] at h
        simp at h
    · have : e = .printLine (taskLine t res (s.processed + 1) total) := by simpa using h
      rw [this]
      rfl
  | finish i res hph =>
    intro e he
    simp at he

theorem execSteps_fx_shape (ts : List TaskSpec) (oc : List (Except String Unit))
    (total : Nat) :
    ∀ (s : ExecState) (fx : List Effect) (s' : ExecState),
    ExecSteps ts oc total s fx s' → ∀ e ∈ fx, execShape e = true := by
  intro s fx s' h
  induction h with
  | refl s => intro e he; cases he
  | step h1 h2 ih =>
    intro e he
    rcases List.mem_append.mp he with h | h
    · exact execStep_fx_shape _ _ _ _ _ _ h1 e h
    · exact ih e h

theorem getElem?_append_idx_lt {α : Type} (A C : List α) (i : Nat) (a : α)
    (h : (A ++ C)[i]? = some a) (hna : a ∉ C) : i < A.length := by
  by_contra hc
  push_neg at hc
  rw [List.getElem?_append_right hc] at h
  exact hna (List.getElem?_mem h)

theorem getElem?_append_idx_ge {α : Type} (A C : List α) (i : Nat) (a : α)
    (h : (A ++ C)[i]? = some a) (hna : a ∉ A) : A.length ≤ i := by
  by_contra hc
  push_neg at hc
  rw [List.getElem?_append_left hc] at h
  exact hna (List.getElem?_mem h)

theorem fullTrace_search_before_fetch (responses : Nat → Except String GelbooruData)
    (fuel : Nat) (dir : String) (fs : List String) (total : Nat)
    (oc : List (Except String Unit)) (fx : List Effect) (i j lim pid : Nat) (u : String)
    (hT : FullRunTrace responses fuel dir fs total oc fx)
    (hi : fx[i]? = some (.search lim pid)) (hj : fx[j]? = some (.fetch u)) : i < j := by
  rcases hT with ⟨acc, fx2, s, hpag, hsteps, _, hfx⟩
  subst hfx
  rw [List.append_assoc] at hi hj
  have hiA : i < acc.fx.length := by
    apply getElem?_append_idx_lt _ _ _ _ hi
    intro hmem
    rcases List.mem_append.mp hmem with h | h
    · have := execSteps_fx_shape acc.tasks oc total _ fx2 s hsteps _ h
      simp [execShape] at this
    · simp at h
  have hjA : acc.fx.length ≤ j := by
    apply getElem?_append_idx_ge _ _ _ _ hj
    intro hmem
    rcases paginate_fx_mem responses dir fs total fuel 0 initPagAcc (.finished acc)
        hpag _ hmem with h | h
    · simp [initPagAcc] at h
    · simp [pagShape] at h
  omega

/-- C2 (amended): download tasks are created while pages are discovered
but are spawned only after the enumeration loop ends (lines 202 and
207-210), so no download executes while any page is being fetched — in
every complete run trace, every search request precedes every download
start. -/
theorem downloads_start_only_after_pagination
    (responses : Nat → Except String GelbooruData)
    (fuel : Nat) (dir : String) (fs : List String) (total : Nat)
    (oc : List (Except String Unit)) (fx : List Effect) (i j lim pid : Nat) (u : String)
    (hT : FullRunTrace responses fuel dir fs total oc fx)
    (hi : fx[i]? = some (.search lim pid)) (hj : fx[j]? = some (.fetch u)) : i < j :=
  fullTrace_search_before_fetch responses fuel dir fs total oc fx i j lim pid u hT hi hj

theorem fullTraceDemoW : FullRunTrace respW 4 "o" [] 1 ocW fxW := by
  refine ⟨accW, fx2W, sW3, by decide, ?_, by decide, by decide⟩
  exact stepsW

/-- Witness for the amended C2 on the one-item run: the page-0 request
at index 0 precedes the download start at index 2. -/
theorem downloads_start_only_after_pagination_witness :
    FullRunTrace respW 4 "o" [] 1 ocW fxW ∧ (0 : Nat) < 2 :=
  ⟨fullTraceDemoW,
    downloads_start_only_after_pagination respW 4 "o" [] 1 ocW fxW 0 2 100 0 "h/a.png"
      fullTraceDemoW (by decide) (by decide)⟩

/-- Counterexample for C2 as stated: complete traces of the one-item run
exist, yet in no trace is a download already executing before a later
page request — a task for page 0's item never runs while page 1 is being
fetched, because the download phase starts only after all pages are
enumerated. -/
theorem no_download_overlaps_pagination :
    FullRunTrace respW 4 "o" [] 1 ocW fxW ∧
    ¬ ∃ (fx : List Effect) (i j : Nat) (u : String) (lim pid : Nat),
      FullRunTrace respW 4 "o" [] 1 ocW fx ∧
      fx[i]? = some (.fetch u) ∧ fx[j]? = some (.search lim pid) ∧ i < j := by
  refine ⟨fullTraceDemoW, ?_⟩
  rintro ⟨fx, i, j, u, lim, pid, hT, hi, hj, hij⟩
  have := fullTrace_search_before_fetch respW 4 "o" [] 1 ocW fx j i lim pid u hT hj hi
  omega
